import Mathlib

/-!
# Required environment lookups (`required.go`, package `env`)

A shallow embedding of the nine `Require*` lookups of `required.go` together with the
parts of the Go standard library they call.

Conventions of the embedding.

* A Go `string` is an immutable sequence of bytes: `GoString = List (Fin 256)`.
  `str "..."` is the UTF-8 encoding of a literal.  A `[]byte` or `[]string` slice is a
  list; the `nil` slice and the empty slice are both the empty list.
* A Go `error` is `nil` or carries a message: `error = Option GoString`, `none` being `nil`.
* Go `int` is the 64-bit `int` of the usual targets; values are `Int`, and every place
  where the library relies on the width carries an explicit bound or `% 2^64`.
* A pointer or slice that the code tests against `nil` (`*url.URL`, `net.IP`) is an `Option`.
-/

/-- One byte of a Go string. -/
abbrev byte := Fin 256

/-- A Go `string`: a sequence of bytes, not necessarily valid UTF-8. -/
abbrev GoString := List byte

/-- The Go string literal with the given text (Go source files are UTF-8). -/
def str (s : String) : GoString := s.toUTF8.data.toList.map (fun b => b.val)

/-- A Go `error` value: `none` is `nil`, `some msg` is an error whose `Error()` is `msg`. -/
abbrev error := Option GoString

namespace errors

/-- The Go function `errors.New(text)`: an error whose message is `text`. -/
def New (text : GoString) : error := some text

end errors

/-! ## `os` -/

namespace os

/-- The process environment: the value of every variable that is set. -/
abbrev Environ := GoString → Option GoString

/-- Go `os.Getenv(key)`: the value of the variable, empty when the variable is not set. -/
def Getenv (e : Environ) (key : GoString) : GoString :=
  match e key with
  | some v => v
  | none => []

end os

/-! ## `strconv` -/

namespace strconv

/-- The two causes a `*strconv.NumError` can carry here. -/
inductive Err where
  | ErrSyntax
  | ErrRange
  deriving DecidableEq, Repr

/-- The size in bits of a Go `int` (`strconv.IntSize`) on 64-bit targets. -/
def intSize : Nat := 64

/-- Go `strconv.ParseBool(str)`: a `switch` over exactly twelve spellings. -/
def ParseBool (s : GoString) : Bool × Option Err :=
  if s = str "1" ∨ s = str "t" ∨ s = str "T" ∨ s = str "true" ∨ s = str "TRUE"
      ∨ s = str "True" then (true, none)
  else if s = str "0" ∨ s = str "f" ∨ s = str "F" ∨ s = str "false" ∨ s = str "FALSE"
      ∨ s = str "False" then (false, none)
  else (false, some Err.ErrSyntax)

/-- The digit loop of the fast path of `Atoi`: `ch -= '0'` on a byte (wrapping),
`ch > 9` is a syntax error, otherwise `n = n*10 + int(ch)`. -/
def atoiFast : GoString → Int → Option Int
  | [], n => some n
  | c :: cs, n =>
    let ch : Nat := (c.val + 256 - 48) % 256
    if ch > 9 then none else atoiFast cs (n * 10 + (ch : Int))

/-- The byte-to-digit `switch` of `ParseUint` with `base0 = false`:
`'0'..'9'` give `c - '0'`, letters give `lower(c) - 'a' + 10` where
`lower(c) = c | ('x' - 'X')`, anything else is a syntax error. -/
def digitVal (c : byte) : Option Nat :=
  if 48 ≤ c.val ∧ c.val ≤ 57 then some (c.val - 48)
  else if 97 ≤ (c.val ||| 32) ∧ (c.val ||| 32) ≤ 122 then some ((c.val ||| 32) - 97 + 10)
  else none

/-- The loop of `ParseUint(s, 10, bitSize)` over the bytes of `s`, with
`cutoff = maxUint64/10 + 1` and `maxVal = 1<<bitSize - 1`; `n` is a `uint64`. -/
def parseUintLoop (cutoff maxVal : Nat) : GoString → Nat → Nat × Option Err
  | [], n => (n, none)
  | c :: cs, n =>
    match digitVal c with
    | none => (0, some Err.ErrSyntax)
    | some d =>
      if d ≥ 10 then (0, some Err.ErrSyntax)
      else if n ≥ cutoff then (maxVal, some Err.ErrRange)
      else
        let n10 := (n * 10) % 2 ^ 64
        let n1 := (n10 + d) % 2 ^ 64
        if n1 < n10 ∨ n1 > maxVal then (maxVal, some Err.ErrRange)
        else parseUintLoop cutoff maxVal cs n1

/-- Go `strconv.ParseUint(s, 10, bitSize)` for `0 ≤ bitSize ≤ 64`, the only base `Atoi`
asks for; with base 10 the prefix and underscore handling of base 0 is not reached. -/
def ParseUint (s : GoString) (bitSize : Nat) : Nat × Option Err :=
  if s = [] then (0, some Err.ErrSyntax)
  else
    let bitSize := if bitSize = 0 then intSize else bitSize
    let cutoff := (2 ^ 64 - 1) / 10 + 1
    let maxVal := 2 ^ bitSize - 1
    parseUintLoop cutoff maxVal s 0

/-- Go `strconv.ParseInt(s, 10, bitSize)`. -/
def ParseInt (s : GoString) (bitSize : Nat) : Int × Option Err :=
  if s = [] then (0, some Err.ErrSyntax)
  else
    let neg := s.head? = some 45
    let s1 := if s.head? = some 43 ∨ s.head? = some 45 then s.tail else s
    match ParseUint s1 bitSize with
    | (_, some Err.ErrSyntax) => (0, some Err.ErrSyntax)
    | (un, _) =>
      let bitSize := if bitSize = 0 then intSize else bitSize
      let cutoff : Nat := 2 ^ (bitSize - 1)
      if ¬ neg ∧ un ≥ cutoff then ((cutoff : Int) - 1, some Err.ErrRange)
      else if neg ∧ un > cutoff then (-(cutoff : Int), some Err.ErrRange)
      else if neg then (-(un : Int), none) else ((un : Int), none)

/-- Go `strconv.Atoi(s)` with a 64-bit `int`: texts of 1 to 18 bytes take the fast path,
everything else goes through `ParseInt(s, 10, 0)`. -/
def Atoi (s : GoString) : Int × Option Err :=
  if 0 < s.length ∧ s.length < 19 then
    let signed := s.head? = some 45 ∨ s.head? = some 43
    let s1 := if signed then s.tail else s
    if signed ∧ s1.length < 1 then (0, some Err.ErrSyntax)
    else
      match atoiFast s1 0 with
      | none => (0, some Err.ErrSyntax)
      | some n => if s.head? = some 45 then (-n, none) else (n, none)
  else ParseInt s 0

/-- The decimal digits of `n` as bytes, most significant first: `"0"` for zero and no
leading zero otherwise (the digits Lean prints for `n`). -/
def decimal (n : Nat) : GoString := (Nat.toDigits 10 n).map (fun ch => Fin.ofNat ch.toNat)

/-- Go `strconv.Itoa(n)`: the canonical base-10 text of an integer, a `'-'` followed by
the digits of the absolute value when `n` is negative, the digits of `n` otherwise. -/
def Itoa (n : Int) : GoString := if n < 0 then 45 :: decimal n.natAbs else decimal n.toNat

/-- Whether every byte of a text is a decimal digit `0`..`9`. -/
def allDigits (ds : GoString) : Bool := ds.all (fun b => decide (48 ≤ b.val ∧ b.val ≤ 57))

/-- The number that a text of decimal digits denotes after the number `acc`: each digit
multiplies the number so far by ten and adds its value. -/
def decVal (acc : Nat) (ds : GoString) : Nat :=
  ds.foldl (fun a b => a * 10 + (b.val - 48)) acc

/-- The integer that a text denotes in base 10, when the text is an optional single
`'+'` or `'-'` followed by one or more decimal digits; `none` for every other text. -/
def signedDecimal (s : GoString) : Option Int :=
  let neg := s.head? = some 45
  let ds := if s.head? = some 43 ∨ s.head? = some 45 then s.tail else s
  if ds ≠ [] ∧ allDigits ds = true then
    some (if neg then -(decVal 0 ds : Int) else (decVal 0 ds : Int))
  else none

/-- ASCII lower-casing of a text: the letters `A`..`Z` become `a`..`z`. -/
def lowerASCII (s : GoString) : GoString :=
  s.map (fun b => if 65 ≤ b.val ∧ b.val ≤ 90 then Fin.ofNat (b.val + 32) else b)

end strconv

/-! ## `unicode/utf8` -/

namespace utf8

/-- The table `first` of `unicode/utf8`: information about the first byte of a UTF-8
sequence.  `0xF0` is `as` (ASCII), `0xF1` is `xx` (invalid); otherwise the low three bits
are the size and the high four bits index `acceptRanges`. -/
def first (c : byte) : Nat :=
  if c.val < 0x80 then 0xF0
  else if c.val < 0xC2 then 0xF1
  else if c.val < 0xE0 then 0x02
  else if c.val = 0xE0 then 0x13
  else if c.val < 0xED then 0x03
  else if c.val = 0xED then 0x23
  else if c.val < 0xF0 then 0x03
  else if c.val = 0xF0 then 0x34
  else if c.val < 0xF4 then 0x04
  else if c.val = 0xF4 then 0x44
  else 0xF1

/-- The table `acceptRanges`: the range `(lo, hi)` allowed for the second byte. -/
def acceptRanges (i : Nat) : Nat × Nat :=
  match i with
  | 0 => (0x80, 0xBF)
  | 1 => (0xA0, 0xBF)
  | 2 => (0x80, 0x9F)
  | 3 => (0x90, 0xBF)
  | 4 => (0x80, 0x8F)
  | _ => (0, 0)

/-- The `size` result of `utf8.DecodeRuneInString(s)`: the width in bytes of the first
rune of `s`; `0` for the empty string and `1` for an invalid or short encoding. -/
def DecodeRuneInString (s : GoString) : Nat :=
  match s with
  | [] => 0
  | s0 :: rest =>
    let x := first s0
    if x ≥ 0xF0 then 1
    else
      let sz := x % 8
      let accept := acceptRanges (x / 16)
      if s.length < sz then 1
      else
        match rest with
        | [] => 1
        | s1 :: rest2 =>
          if s1.val < accept.1 ∨ accept.2 < s1.val then 1
          else if sz ≤ 2 then 2
          else
            match rest2 with
            | [] => 1
            | s2 :: rest3 =>
              if s2.val < 0x80 ∨ 0xBF < s2.val then 1
              else if sz ≤ 3 then 3
              else
                match rest3 with
                | [] => 1
                | s3 :: _ => if s3.val < 0x80 ∨ 0xBF < s3.val then 1 else 4

/-- The loop of `utf8.RuneCountInString`: each round advances by the width of one rune
(the loop body repeats the width computation of `DecodeRuneInString`) and counts it.
The first argument bounds the number of rounds. -/
def runeCountLoop : Nat → GoString → Nat → Nat
  | 0, _, n => n
  | fuel + 1, s, n =>
    if s = [] then n else runeCountLoop fuel (s.drop (DecodeRuneInString s)) (n + 1)

/-- Go `utf8.RuneCountInString(s)`. -/
def RuneCountInString (s : GoString) : Nat := runeCountLoop s.length s 0

end utf8

/-! ## `strings` -/

namespace strings

/-- Go `strings.Index(s, substr)`: the index of the first instance of `substr` in `s`,
`none` standing for `-1`.  The library's search strategies all compute this index. -/
def Index : GoString → GoString → Option Nat
  | [], substr => if substr = [] then some 0 else none
  | c :: cs, substr =>
    if substr.isPrefixOf (c :: cs) then some 0
    else (Index cs substr).map (fun i => i + 1)

/-- The general loop of `strings.Count`: find the next instance, count it, continue
after it.  The first argument bounds the number of rounds. -/
def countLoop (substr : GoString) : Nat → GoString → Nat → Nat
  | 0, _, n => n
  | fuel + 1, s, n =>
    match Index s substr with
    | none => n
    | some i => countLoop substr fuel (s.drop (i + substr.length)) (n + 1)

/-- Go `strings.Count(s, substr)`: the number of non-overlapping instances of `substr`;
for an empty `substr`, one more than the number of runes; for a one-byte `substr`, the
number of bytes equal to it (`bytealg.CountString`). -/
def Count (s substr : GoString) : Nat :=
  match substr with
  | [] => utf8.RuneCountInString s + 1
  | [b] => s.count b
  | _ => countLoop substr s.length s 0

/-- The loop of `strings.explode`: `k` more pieces of one rune each, then the rest. -/
def explodeLoop : Nat → GoString → List GoString
  | 0, s => [s]
  | k + 1, s =>
    let size := utf8.DecodeRuneInString s
    s.take size :: explodeLoop k (s.drop size)

/-- Go `strings.explode(s, -1)`: `s` cut into its runes, invalid bytes one by one. -/
def explode (s : GoString) : List GoString :=
  let n := utf8.RuneCountInString s
  if n > 0 then explodeLoop (n - 1) s else []

/-- The loop `for i < n` of `strings.genSplit` with `sepSave = 0`: `k` is `n - i`. -/
def genSplitLoop (sep : GoString) : Nat → GoString → List GoString
  | 0, s => [s]
  | k + 1, s =>
    match Index s sep with
    | none => [s]
    | some m => s.take m :: genSplitLoop sep k (s.drop (m + sep.length))

/-- Go `strings.Split(s, sep)`, that is `genSplit(s, sep, 0, -1)`. -/
def Split (s sep : GoString) : List GoString :=
  if sep = [] then explode s
  else
    let n := Count s sep + 1
    let n := if n > s.length + 1 then s.length + 1 else n
    genSplitLoop sep (n - 1) s

/-- Go `strings.Contains(s, substr)`: `Index(s, substr) >= 0`. -/
def Contains (s substr : GoString) : Bool := (Index s substr).isSome

/-- Go `strings.Join(elems, sep)`: the elements with `sep` between neighbours. -/
def Join (elems : List GoString) (sep : GoString) : GoString :=
  match elems with
  | [] => []
  | [e] => e
  | e :: rest => e ++ sep ++ Join rest sep

end strings

/-! ## Library behaviour that is left open -/

/-- The library behaviour that the embedding does not fix: 64-bit floating point and the
URL grammar.  Every statement below holds for every value of this structure. -/
structure Lib where
  /-- The type `float64`. -/
  float64 : Type
  /-- The `float64` value `0.0`. -/
  zero : float64
  /-- What `strconv.ParseFloat(s, 64)` returns on a non-empty text `s`: `some f` for the
  value `f` with a `nil` error, `none` for a non-nil error. -/
  atof64 : GoString → Option float64
  /-- The type `url.URL`. -/
  URL : Type
  /-- Go `url.Parse(rawURL)`: the pair `(u, err)` it returns, `u` possibly `nil`. -/
  urlParse : GoString → Option URL × error
  /-- The `float64` step of `time.ParseDuration` for a fractional component:
  `uint64(float64(f) * (float64(unit) / scale))`. -/
  fracNanos : Nat → Nat → Nat → Nat

namespace strconv

/-- Go `strconv.ParseFloat(s, 64)`, as `some f` (value `f`, `nil` error) or `none` (an
error).  The empty text is a syntax error: `special` and `readFloat` both give up at
their first length check.  Non-empty texts are left to `Lib.atof64`. -/
def ParseFloat (L : Lib) (s : GoString) : Option L.float64 :=
  if s = [] then none else L.atof64 s

end strconv

/-! ## `time` -/

namespace time

/-- Conversion of an integer to `int64` (two's complement wrap-around). -/
def toInt64 (x : Int) : Int := (x + 2 ^ 63) % 2 ^ 64 - 2 ^ 63

/-- Go `time.leadingInt(s)` with accumulator `x`: consumes the leading `[0-9]*`;
`none` is `errLeadingInt` (overflow), otherwise the value and the rest of `s`. -/
def leadingInt : GoString → Nat → Option (Nat × GoString)
  | [], x => some (x, [])
  | c :: cs, x =>
    if c.val < 48 ∨ c.val > 57 then some (x, c :: cs)
    else if x > 2 ^ 63 / 10 then none
    else
      let x1 := ((x * 10 + c.val) % 2 ^ 64 + 2 ^ 64 - 48) % 2 ^ 64
      if x1 > 2 ^ 63 then none else leadingInt cs x1

/-- Go `time.leadingFraction(s)` with the loop state `(x, scale, overflow)`: consumes the
leading `[0-9]*`, no longer accumulating once precision is exhausted.  `scale` is a
power of ten of at most twenty digits, which `float64` holds exactly. -/
def leadingFraction : GoString → Nat → Nat → Bool → Nat × Nat × GoString
  | [], x, scale, _ => (x, scale, [])
  | c :: cs, x, scale, overflow =>
    if c.val < 48 ∨ c.val > 57 then (x, scale, c :: cs)
    else if overflow then leadingFraction cs x scale true
    else if x > (2 ^ 63 - 1) / 10 then leadingFraction cs x scale true
    else
      let y := ((x * 10 + c.val) % 2 ^ 64 + 2 ^ 64 - 48) % 2 ^ 64
      if y > 2 ^ 63 then leadingFraction cs x scale true
      else leadingFraction cs y (scale * 10) false

/-- The table `time.unitMap`: nanoseconds per unit, `none` for an unknown unit. -/
def unitMap (u : GoString) : Option Nat :=
  if u = str "ns" then some 1
  else if u = str "us" then some 1000
  else if u = str "µs" then some 1000
  else if u = str "μs" then some 1000
  else if u = str "ms" then some 1000000
  else if u = str "s" then some 1000000000
  else if u = str "m" then some 60000000000
  else if u = str "h" then some 3600000000000
  else none

/-- Whether a byte is `'.'` or a decimal digit. -/
def isDotOrDigit (c : byte) : Bool := c.val = 46 ∨ (48 ≤ c.val ∧ c.val ≤ 57)

/-- The step `(\.[0-9]*)?` of `time.ParseDuration`: when `s` starts with a period,
the fraction after it is read by `leadingFraction`; otherwise `f = 0`, `scale = 1` and
nothing is consumed. -/
def optFraction (s : GoString) : Nat × Nat × GoString :=
  match s with
  | c :: t => if c.val = 46 then leadingFraction t 0 1 false else (0, 1, s)
  | [] => (0, 1, s)

/-- One round of the loop `for s != ""` of `time.ParseDuration` on a non-empty `s`, with
the running total `d` (a `uint64`): a number, an optional fraction and a unit are
consumed and their value is added to `d`.  The result is the rest of the text and the
new total; `none` is any of the error returns of the loop body. -/
def parseComponent (L : Lib) (s : GoString) (d : Nat) : Option (GoString × Nat) :=
  match s with
  | [] => none
  | c0 :: _ =>
    if ¬ isDotOrDigit c0 then none
    else
      match leadingInt s 0 with
      | none => none
      | some (v, s1) =>
        let pre := s.length ≠ s1.length
        let fr := optFraction s1
        let post := s1.head? = some 46 ∧ s1.tail.length ≠ fr.2.2.length
        let f := fr.1
        let scale := fr.2.1
        let s2 := fr.2.2
        if ¬ pre ∧ ¬ post then none
        else
          let u := s2.takeWhile (fun c => ¬ isDotOrDigit c)
          let s3 := s2.dropWhile (fun c => ¬ isDotOrDigit c)
          if u.length = 0 then none
          else
            match unitMap u with
            | none => none
            | some unit =>
              if v > 2 ^ 63 / unit then none
              else
                let v1 := (v * unit) % 2 ^ 64
                let v2 := if f > 0 then (v1 + L.fracNanos f unit scale) % 2 ^ 64 else v1
                if f > 0 ∧ v2 > 2 ^ 63 then none
                else
                  let d1 := (d + v2) % 2 ^ 64
                  if d1 > 2 ^ 63 then none else some (s3, d1)

/-- The loop `for s != ""` of `time.ParseDuration`: rounds of `parseComponent` until the
text is used up; `none` is an error.  Each round consumes at least the unit; the first
argument bounds the number of rounds. -/
def parseLoop (L : Lib) : Nat → GoString → Nat → Option Nat
  | 0, s, d => if s = [] then some d else none
  | fuel + 1, s, d =>
    if s = [] then some d
    else
      match parseComponent L s d with
      | none => none
      | some (s3, d1) => parseLoop L fuel s3 d1

/-- Go `time.ParseDuration(s)`: the duration in nanoseconds (an `int64`), or `none` for
an error. -/
def ParseDuration (L : Lib) (s : GoString) : Option Int :=
  let neg := s.head? = some 45
  let s1 := if s.head? = some 45 ∨ s.head? = some 43 then s.tail else s
  if s1 = str "0" then some 0
  else if s1 = [] then none
  else
    match parseLoop L s1.length s1 0 with
    | none => none
    | some d =>
      if neg then some (toInt64 (-(toInt64 d)))
      else if d > 2 ^ 63 - 1 then none
      else some (toInt64 d)

/-- Go `time.Nanosecond`, the unit of a `Duration`. -/
def Nanosecond : Nat := 1

/-- Go `time.Microsecond`. -/
def Microsecond : Nat := 1000 * Nanosecond

/-- Go `time.Millisecond`. -/
def Millisecond : Nat := 1000 * Microsecond

/-- Go `time.Second`. -/
def Second : Nat := 1000 * Millisecond

/-- Go `time.Minute`. -/
def Minute : Nat := 60 * Second

/-- Go `time.Hour`. -/
def Hour : Nat := 60 * Minute

/-- The six unit suffixes written with ASCII letters. -/
inductive Suffix where
  | ns
  | us
  | ms
  | s
  | m
  | h
  deriving DecidableEq, Repr

/-- The text of a unit suffix. -/
def Suffix.text : Suffix → GoString
  | Suffix.ns => str "ns"
  | Suffix.us => str "us"
  | Suffix.ms => str "ms"
  | Suffix.s => str "s"
  | Suffix.m => str "m"
  | Suffix.h => str "h"

/-- The length of a unit, in nanoseconds. -/
def Suffix.nanos : Suffix → Nat
  | Suffix.ns => Nanosecond
  | Suffix.us => Microsecond
  | Suffix.ms => Millisecond
  | Suffix.s => Second
  | Suffix.m => Minute
  | Suffix.h => Hour

/-- The text `n1u1...nkuk` of a sequence of components, each number in decimal. -/
def componentsText : List (Nat × Suffix) → GoString
  | [] => []
  | (n, u) :: rest => strconv.decimal n ++ u.text ++ componentsText rest

/-- The sum of `ni` times the length of `ui`, in nanoseconds. -/
def componentsTotal : List (Nat × Suffix) → Nat
  | [] => 0
  | (n, u) :: rest => n * u.nanos + componentsTotal rest

end time

/-! ## `net` and `net/netip` -/

namespace net

/-- The loop of `netip.parseIPv4Fields` over the text `s`.  `first` says that the
current byte is `s[0]`, `prevDot` that the byte before it is `'.'`; `fields` holds the
octets stored so far (`pos` of them).  `none` is an error. -/
def parseIPv4FieldsLoop :
    GoString → Bool → Bool → Nat → Nat → Nat → List byte → Option (List byte)
  | [], _, _, val, pos, _, fields =>
    if pos < 3 then none else some (fields ++ [Fin.ofNat (val % 256)])
  | c :: cs, first, prevDot, val, pos, digLen, fields =>
    if 48 ≤ c.val ∧ c.val ≤ 57 then
      if digLen = 1 ∧ val = 0 then none
      else
        let val1 := val * 10 + c.val - 48
        if val1 > 255 then none
        else parseIPv4FieldsLoop cs false false val1 pos (digLen + 1) fields
    else if c.val = 46 then
      if first ∨ cs = [] ∨ prevDot then none
      else if pos = 3 then none
      else parseIPv4FieldsLoop cs false true 0 (pos + 1) 0 (fields ++ [Fin.ofNat (val % 256)])
    else none

/-- Go `netip.parseIPv4Fields` on the text `s`: its four octets, or `none`. -/
def parseIPv4Fields (s : GoString) : Option (List byte) :=
  parseIPv4FieldsLoop s true false 0 0 0 []

/-- The sixteen-byte form of an IPv4 address (`Addr.As16` of `AddrFrom4`). -/
def v4InV6 (fields : List byte) : List byte :=
  [0, 0, 0, 0, 0, 0, 0, 0, 0, 0, 0xff, 0xff] ++ fields

/-- Go `netip.parseIPv4(s)` followed by `As16`. -/
def parseIPv4 (s : GoString) : Option (List byte) :=
  (parseIPv4Fields s).map v4InV6

/-- The value of a hexadecimal digit byte, if it is one. -/
def hexVal (c : byte) : Option Nat :=
  if 48 ≤ c.val ∧ c.val ≤ 57 then some (c.val - 48)
  else if 97 ≤ c.val ∧ c.val ≤ 102 then some (c.val - 97 + 10)
  else if 65 ≤ c.val ∧ c.val ≤ 70 then some (c.val - 65 + 10)
  else none

/-- The inner loop of `netip.parseIPv6` reading one hexadecimal group: the number `off` of
digits read, their value `acc` (a `uint32`) and the text after them; `none` for a group
of more than four digits or a value above `0xFFFF`. -/
def hexGroup : GoString → Nat → Nat → Option (Nat × Nat × GoString)
  | [], off, acc => some (off, acc, [])
  | c :: cs, off, acc =>
    match hexVal c with
    | none => some (off, acc, c :: cs)
    | some d =>
      let acc1 := (acc * 16 + d) % 2 ^ 32
      if off > 3 then none
      else if acc1 > 0xFFFF then none
      else hexGroup cs (off + 1) acc1

/-- The loop `for i < 16` of `netip.parseIPv6`.  `ip` holds the `i` bytes written so
far, `ellipsis` the position of `::` if seen.  The result is the state `(s, ip,
ellipsis)` at the exit of the loop, `none` for an error return.  Each round writes at
least two bytes; the first argument bounds the number of rounds. -/
def parseIPv6Loop :
    Nat → GoString → List byte → Option Nat → Option (GoString × List byte × Option Nat)
  | 0, s, ip, ellipsis => some (s, ip, ellipsis)
  | fuel + 1, s, ip, ellipsis =>
    if ¬ ip.length < 16 then some (s, ip, ellipsis)
    else
      match hexGroup s 0 0 with
      | none => none
      | some (off, acc, rest) =>
        if off = 0 then none
        else if rest.head? = some 46 then
          if ellipsis = none ∧ ip.length ≠ 12 then none
          else if ip.length + 4 > 16 then none
          else
            match parseIPv4Fields s with
            | none => none
            | some fields => some ([], ip ++ fields, ellipsis)
        else
          let ip1 := ip ++ [Fin.ofNat (acc / 256 % 256), Fin.ofNat (acc % 256)]
          match rest with
          | [] => some ([], ip1, ellipsis)
          | c :: s1 =>
            if c.val ≠ 58 then none
            else
              match s1 with
              | [] => none
              | c1 :: s2 =>
                if c1.val = 58 then
                  if ellipsis ≠ none then none
                  else if s2 = [] then some ([], ip1, some ip1.length)
                  else parseIPv6Loop fuel s2 ip1 (some ip1.length)
                else parseIPv6Loop fuel s1 ip1 ellipsis

/-- Go `netip.parseIPv6(in)`: the sixteen bytes and the zone, or `none` for an error. -/
def parseIPv6 (s0 : GoString) : Option (List byte × GoString) :=
  let cut := s0.span (fun c => c.val ≠ 37)
  let s := cut.1
  let zone := cut.2.tail
  if cut.2 ≠ [] ∧ zone = [] then none
  else
    let lead := s.take 2 = str "::"
    let s1 := if lead then s.drop 2 else s
    if lead ∧ s1 = [] then some (List.replicate 16 0, zone)
    else
      match parseIPv6Loop 8 s1 [] (if lead then some 0 else none) with
      | none => none
      | some (rest, ip, ellipsis) =>
        if rest ≠ [] then none
        else if ip.length < 16 then
          match ellipsis with
          | none => none
          | some e =>
            some (ip.take e ++ List.replicate (16 - ip.length) 0 ++ ip.drop e, zone)
        else if ellipsis ≠ none then none
        else some (ip, zone)

/-- Go `netip.ParseAddr(s)` as used by `net.ParseIP`: the first `'.'`, `':'` or `'%'`
selects the parser; the result is the sixteen-byte form and the zone. -/
def ParseAddr (s : GoString) : Option (List byte × GoString) :=
  match s.find? (fun c => c.val = 46 ∨ c.val = 58 ∨ c.val = 37) with
  | none => none
  | some c =>
    if c.val = 46 then (parseIPv4 s).map (fun ip => (ip, []))
    else if c.val = 58 then parseIPv6 s
    else none

/-- Go `net.ParseIP(s)`: the sixteen-byte address, or `none` (`nil`) when `s` is not a
valid textual IP address or carries a zone. -/
def ParseIP (s : GoString) : Option (List byte) :=
  match ParseAddr s with
  | none => none
  | some (ip, zone) => if zone ≠ [] then none else some ip

/-- Go `(net.IP).To4`: the four IPv4 octets of an address, `none` (`nil`) when the
address is not an IPv4 address. -/
def To4 (ip : List byte) : Option (List byte) :=
  if ip.length = 4 then some ip
  else if ip.length = 16 ∧ (ip.take 10).all (fun b => b = 0) ∧ ip.get? 10 = some 0xff
      ∧ ip.get? 11 = some 0xff then some (ip.drop 12)
  else none

/-- The dotted-decimal text `a.b.c.d`, each octet in decimal without leading zeros. -/
def dottedDecimal (a b c d : byte) : GoString :=
  strconv.decimal a.val ++ [46] ++ strconv.decimal b.val ++ [46]
    ++ strconv.decimal c.val ++ [46] ++ strconv.decimal d.val

end net

/-! ## The package `env` -/

namespace env

/-- Modelled from the spec: the declaration of the reader type `client` is not in
`required.go`.  The spec gives it one capability only, "retrieving a raw string given a
key", normally the process environment (`os.Getenv`, which yields the empty string for an
unset variable) and replaceable in tests. -/
structure client where
  /-- The raw value of a key; empty when the key is unset. -/
  Getenv : GoString → GoString

/-- Modelled from the spec: the process-wide default reader is declared outside
`required.go`; it reads the process environment `e` through `os.Getenv`. -/
def DefaultClient (e : os.Environ) : client := { Getenv := os.Getenv e }

/-- Go `keyError(key)`, the missing-key error. -/
def keyError (key : GoString) : error :=
  errors.New (key ++ str " is a requried environment variable.")

/-- Go `(*client).RequireBool`. -/
def client.RequireBool (c : client) (key : GoString) : Bool × error :=
  match strconv.ParseBool (c.Getenv key) with
  | (b, none) => (b, none)
  | (_, some _) => (false, keyError key)

/-- The Go conversion `[]byte(v)`: the bytes of the string. -/
def bytesOf (v : GoString) : List byte := v

/-- The Go conversion `string(b)`: the string with the given bytes. -/
def stringOf (b : List byte) : GoString := b

/-- Go `(*client).RequireBytes`. -/
def client.RequireBytes (c : client) (key : GoString) : List byte × error :=
  let v := c.Getenv key
  if v ≠ [] then (bytesOf v, none) else ([], keyError key)

/-- Go `(*client).RequireInt`. -/
def client.RequireInt (c : client) (key : GoString) : Int × error :=
  match strconv.Atoi (c.Getenv key) with
  | (i, none) => (i, none)
  | (_, some _) => (0, keyError key)

/-- Go `(*client).RequireString`. -/
def client.RequireString (c : client) (key : GoString) : GoString × error :=
  let v := c.Getenv key
  if v ≠ [] then (v, none) else (str "", keyError key)

/-- Go `(*client).RequireStrings`: `seps` is the variadic separator list. -/
def client.RequireStrings (c : client) (key : GoString) (seps : List GoString) :
    List GoString × error :=
  let v := c.Getenv key
  if v ≠ [] then
    let sep := match seps with
      | [] => str ","
      | s0 :: _ => s0
    (strings.Split v sep, none)
  else ([], keyError key)

/-- Go `(*client).RequireFloat64`. -/
def client.RequireFloat64 (L : Lib) (c : client) (key : GoString) : L.float64 × error :=
  match strconv.ParseFloat L (c.Getenv key) with
  | some f => (f, none)
  | none => (L.zero, keyError key)

/-- Go `(*client).RequireDuration`. -/
def client.RequireDuration (L : Lib) (c : client) (key : GoString) : Int × error :=
  match time.ParseDuration L (c.Getenv key) with
  | some d => (d, none)
  | none => (0, keyError key)

/-- Go `(*client).RequireURL`: both branches on the parser's error return `u, nil`. -/
def client.RequireURL (L : Lib) (c : client) (key : GoString) : Option L.URL × error :=
  let v := c.Getenv key
  if v ≠ [] then
    match L.urlParse v with
    | (u, some _) => (u, none)
    | (u, none) => (u, none)
  else (none, keyError key)

/-- Go `(*client).RequireAddr`. -/
def client.RequireAddr (c : client) (key : GoString) : Option (List byte) × error :=
  let v := c.Getenv key
  if v ≠ [] then
    match net.ParseIP v with
    | some addr => (some addr, none)
    | none => (none, errors.New (key ++ str " is not a valid address"))
  else (none, keyError key)

/-! The package-level functions read the package variable `DefaultClient`; its value at
the time of the call is the argument `dc`. -/

/-- Go `RequireBool(key)`. -/
def RequireBool (dc : client) (key : GoString) : Bool × error :=
  dc.RequireBool key

/-- Go `RequireBytes(key)`. -/
def RequireBytes (dc : client) (key : GoString) : List byte × error :=
  dc.RequireBytes key

/-- Go `RequireFloat64(key)`. -/
def RequireFloat64 (L : Lib) (dc : client) (key : GoString) : L.float64 × error :=
  dc.RequireFloat64 L key

/-- Go `RequireDuration(key)`. -/
def RequireDuration (L : Lib) (dc : client) (key : GoString) : Int × error :=
  dc.RequireDuration L key

/-- Go `RequireInt(key)`. -/
def RequireInt (dc : client) (key : GoString) : Int × error :=
  dc.RequireInt key

/-- Go `RequireString(key)`. -/
def RequireString (dc : client) (key : GoString) : GoString × error :=
  dc.RequireString key

/-- Go `RequireStrings(key)`: the method is called with no separator argument. -/
def RequireStrings (dc : client) (key : GoString) : List GoString × error :=
  dc.RequireStrings key []

/-- Go `RequireURL(key)`. -/
def RequireURL (L : Lib) (dc : client) (key : GoString) : Option L.URL × error :=
  dc.RequireURL L key

/-- Go `RequireAddr(key)`. -/
def RequireAddr (dc : client) (key : GoString) : Option (List byte) × error :=
  dc.RequireAddr key

/-- How a call ends: it returns to the caller, or the goroutine panics with a value. -/
inductive Outcome where
  | returns
  | panics (value : GoString)
  deriving DecidableEq, Repr

/-- Go `Required(e)`: panics with `fmt.Sprintf("Fatal error: %s", e.Error())` when `e`
is not `nil`, and returns otherwise. -/
def Required (e : error) : Outcome :=
  match e with
  | some msg => Outcome.panics (str "Fatal error: " ++ msg)
  | none => Outcome.returns

end env


/-! ## Concrete inputs used to instantiate the statements -/

/-- A reader in which every key has the raw value `v`. -/
def constClient (v : GoString) : env.client := { Getenv := fun _ => v }

/-- An environment in which only the variable `k` is set, to `v`. -/
def oneVar (k v : GoString) : os.Environ := fun key => if key = k then some v else none

/-- An instance of the open library behaviour: the float parser reads only the texts
`"0"` and `"1"`; the URL parser rejects a text that contains an ASCII control byte,
returning a `nil` URL and an error, and otherwise returns the text itself; the
fractional step of the duration parser rounds down. -/
def sampleLib : Lib where
  float64 := Int
  zero := 0
  atof64 := fun s => if s = str "0" then some 0 else if s = str "1" then some 1 else none
  URL := GoString
  urlParse := fun s =>
    if s.any (fun b => decide (b.val < 32 ∨ b.val = 127)) then
      (none, some (str "net/url: invalid control character in URL"))
    else (some s, none)
  fracNanos := fun f unit scale => f * unit / scale

/-! ## Basic facts about the library functions -/

theorem strconv.ParseBool_nil : strconv.ParseBool [] = (false, some strconv.Err.ErrSyntax) := by
  decide

theorem strconv.Atoi_nil : strconv.Atoi [] = (0, some strconv.Err.ErrSyntax) := by
  decide

theorem strconv.ParseFloat_nil (L : Lib) : strconv.ParseFloat L [] = none := by
  simp [strconv.ParseFloat]

theorem time.ParseDuration_nil (L : Lib) : time.ParseDuration L [] = none := by
  simp [time.ParseDuration, str]
  decide

theorem env.keyError_ne_nil (key : GoString) : env.keyError key ≠ none := by
  simp [env.keyError, errors.New]

/-! ## The round bounds of the loops are sufficient

The loops above carry a bound on the number of rounds.  Each round makes progress, so
the bound the callers pass is never the reason a loop stops: one more round allowed
changes nothing. -/

theorem utf8.DecodeRuneInString_pos (s : GoString) (h : s ≠ []) :
    1 ≤ utf8.DecodeRuneInString s := by
  unfold utf8.DecodeRuneInString
  cases s with
  | nil => exact absurd rfl h
  | cons s0 rest =>
    simp only []
    split_ifs <;> try omega
    all_goals (split <;> try omega)
    all_goals (split_ifs <;> try omega)
    all_goals (split <;> try omega)
    all_goals (split_ifs <;> try omega)
    all_goals (split <;> try omega)
    all_goals (split_ifs <;> omega)

theorem utf8.runeCountLoop_fuel (fuel : Nat) : ∀ (s : GoString) (n : Nat),
    s.length ≤ fuel →
    utf8.runeCountLoop (fuel + 1) s n = utf8.runeCountLoop fuel s n := by
  induction fuel with
  | zero =>
    intro s n hs
    have : s = [] := List.eq_nil_of_length_eq_zero (by omega)
    simp [utf8.runeCountLoop, this]
  | succ f ih =>
    intro s n hs
    conv_lhs => rw [utf8.runeCountLoop]
    conv_rhs => rw [utf8.runeCountLoop]
    by_cases he : s = []
    · simp [he]
    · rw [if_neg he, if_neg he]
      apply ih
      have := utf8.DecodeRuneInString_pos s he
      have hl : 0 < s.length := List.length_pos.mpr he
      rw [List.length_drop]
      omega

theorem strings.Index_le : ∀ (s substr : GoString) (i : Nat),
    strings.Index s substr = some i → i + substr.length ≤ s.length := by
  intro s
  induction s with
  | nil =>
    intro substr i h
    unfold strings.Index at h
    split_ifs at h with h0
    simp only [Option.some.injEq] at h
    subst h; subst h0; simp
  | cons c cs ih =>
    intro substr i h
    unfold strings.Index at h
    split_ifs at h with h0
    · simp only [Option.some.injEq] at h
      subst h
      rw [List.isPrefixOf_iff_prefix] at h0
      simpa using h0.length_le
    · cases hi : strings.Index cs substr with
      | none => rw [hi] at h; simp at h
      | some j =>
        rw [hi] at h
        simp only [Option.map_some', Option.some.injEq] at h
        have := ih substr j hi
        simp only [List.length_cons]
        omega

theorem strings.countLoop_fuel (substr : GoString) (hsub : substr ≠ []) (fuel : Nat) :
    ∀ (s : GoString) (n : Nat), s.length ≤ fuel →
    strings.countLoop substr (fuel + 1) s n = strings.countLoop substr fuel s n := by
  have hl : 0 < substr.length := List.length_pos.mpr hsub
  induction fuel with
  | zero =>
    intro s n hs
    have : s = [] := List.eq_nil_of_length_eq_zero (by omega)
    subst this
    have : strings.Index [] substr = none := by simp [strings.Index, hsub]
    simp [strings.countLoop, this]
  | succ f ih =>
    intro s n hs
    conv_lhs => rw [strings.countLoop]
    conv_rhs => rw [strings.countLoop]
    cases hi : strings.Index s substr with
    | none => rfl
    | some i =>
      simp only []
      apply ih
      have := strings.Index_le s substr i hi
      rw [List.length_drop]
      omega

theorem time.leadingInt_length : ∀ (s : GoString) (x v : Nat) (r : GoString),
    time.leadingInt s x = some (v, r) → r.length ≤ s.length := by
  intro s
  induction s with
  | nil =>
    intro x v r h
    simp only [time.leadingInt, Option.some.injEq, Prod.mk.injEq] at h
    rw [← h.2]
  | cons c cs ih =>
    intro x v r h
    unfold time.leadingInt at h
    dsimp only at h
    split_ifs at h with h1 h2 h3
    · simp only [Option.some.injEq, Prod.mk.injEq] at h
      rw [← h.2]
    · have := ih _ _ _ h
      simp only [List.length_cons]
      omega

theorem time.leadingFraction_length : ∀ (s : GoString) (x scale : Nat) (o : Bool),
    (time.leadingFraction s x scale o).2.2.length ≤ s.length := by
  intro s
  induction s with
  | nil => intro x scale o; simp [time.leadingFraction]
  | cons c cs ih =>
    intro x scale o
    unfold time.leadingFraction
    dsimp only
    split_ifs
    · exact Nat.le_refl _
    all_goals
      simp only [List.length_cons]
      exact Nat.le_succ_of_le (ih _ _ _)

theorem time.optFraction_length (s : GoString) :
    (time.optFraction s).2.2.length ≤ s.length := by
  unfold time.optFraction
  cases s with
  | nil => simp
  | cons c t =>
    simp only []
    split_ifs
    · have := time.leadingFraction_length t 0 1 false
      simp only [List.length_cons]
      omega
    · simp

/-- A round of the duration loop consumes at least one byte. -/
theorem time.parseComponent_lt (L : Lib) (s : GoString) (d : Nat) (s3 : GoString) (d1 : Nat)
    (h : time.parseComponent L s d = some (s3, d1)) : s3.length < s.length := by
  unfold time.parseComponent at h
  cases s with
  | nil => simp at h
  | cons c0 t =>
    simp only [] at h
    by_cases h0 : ¬ time.isDotOrDigit c0 = true
    · rw [if_pos h0] at h; simp at h
    · rw [if_neg h0] at h
      cases hli : time.leadingInt (c0 :: t) 0 with
      | none => rw [hli] at h; simp at h
      | some vr =>
        obtain ⟨v, s1⟩ := vr
        rw [hli] at h
        simp only [] at h
        have hs1 := time.leadingInt_length _ _ _ _ hli
        have hfr := time.optFraction_length s1
        generalize time.optFraction s1 = fr at h hfr
        have hsplit := List.takeWhile_append_dropWhile
          (fun c => decide ¬ time.isDotOrDigit c = true) fr.2.2
        have hlen := congrArg List.length hsplit
        rw [List.length_append] at hlen
        generalize List.takeWhile (fun c => decide ¬ time.isDotOrDigit c = true) fr.2.2
          = u at h hlen
        generalize List.dropWhile (fun c => decide ¬ time.isDotOrDigit c = true) fr.2.2
          = r at h hlen
        by_cases h1 : ¬ (c0 :: t).length ≠ s1.length ∧
            ¬ (s1.head? = some 46 ∧ s1.tail.length ≠ fr.2.2.length)
        · rw [if_pos h1] at h; simp at h
        · rw [if_neg h1] at h
          by_cases h2 : u.length = 0
          · rw [if_pos h2] at h; simp at h
          · rw [if_neg h2] at h
            cases hu : time.unitMap u with
            | none => rw [hu] at h; simp at h
            | some unit =>
              rw [hu] at h
              simp only [] at h
              split_ifs at h
              all_goals
                simp only [Option.some.injEq, Prod.mk.injEq] at h
                rw [← h.1]
                omega

theorem time.parseLoop_fuel (L : Lib) (fuel : Nat) : ∀ (s : GoString) (d : Nat),
    s.length ≤ fuel → time.parseLoop L (fuel + 1) s d = time.parseLoop L fuel s d := by
  induction fuel with
  | zero =>
    intro s d hs
    have : s = [] := List.eq_nil_of_length_eq_zero (by omega)
    simp [time.parseLoop, this]
  | succ f ih =>
    intro s d hs
    conv_lhs => rw [time.parseLoop]
    conv_rhs => rw [time.parseLoop]
    by_cases he : s = []
    · simp [he]
    · rw [if_neg he, if_neg he]
      cases hc : time.parseComponent L s d with
      | none => rfl
      | some r =>
        obtain ⟨s3, d1⟩ := r
        simp only []
        apply ih
        have := time.parseComponent_lt L s d s3 d1 hc
        omega

theorem net.parseIPv6Loop_fuel (fuel : Nat) :
    ∀ (s : GoString) (ip : List byte) (e : Option Nat), 16 ≤ ip.length + 2 * fuel →
    net.parseIPv6Loop (fuel + 1) s ip e = net.parseIPv6Loop fuel s ip e := by
  induction fuel with
  | zero =>
    intro s ip e h
    simp only [net.parseIPv6Loop]
    rw [if_pos (by omega)]
  | succ f ih =>
    intro s ip e h
    conv_lhs => rw [net.parseIPv6Loop]
    conv_rhs => rw [net.parseIPv6Loop]
    repeat' split
    all_goals first
      | rfl
      | (apply ih; simp only [List.length_append, List.length_cons, List.length_nil]; omega)

/-! ## The empty raw value -/

/-- The four parsing lookups on an empty raw value. -/
theorem require_empty_value_aux (L : Lib) (c : env.client) (K : GoString)
    (h : c.Getenv K = []) :
    c.RequireBool K = (false, env.keyError K)
    ∧ c.RequireFloat64 L K = (L.zero, env.keyError K)
    ∧ c.RequireDuration L K = (0, env.keyError K)
    ∧ c.RequireInt K = (0, env.keyError K) := by
  refine ⟨?_, ?_, ?_, ?_⟩
  · simp [env.client.RequireBool, h, strconv.ParseBool_nil]
  · simp [env.client.RequireFloat64, h, strconv.ParseFloat_nil]
  · simp [env.client.RequireDuration, h, time.ParseDuration_nil]
  · simp [env.client.RequireInt, h, strconv.Atoi_nil]

/-- C1: when the raw value of `K` is the empty string, each of the nine lookups returns
the zero value of its type together with `keyError(K)`; and the raw value read from the
process environment is the empty string both when `K` is unset and when it is set to
the empty string, so the two cases are not told apart. -/
theorem require_empty_value (L : Lib) (c : env.client) (K : GoString)
    (h : c.Getenv K = []) :
    c.RequireBool K = (false, env.keyError K)
    ∧ c.RequireBytes K = ([], env.keyError K)
    ∧ c.RequireFloat64 L K = (L.zero, env.keyError K)
    ∧ c.RequireDuration L K = (0, env.keyError K)
    ∧ c.RequireInt K = (0, env.keyError K)
    ∧ c.RequireString K = (str "", env.keyError K)
    ∧ (∀ seps, c.RequireStrings K seps = ([], env.keyError K))
    ∧ c.RequireURL L K = (none, env.keyError K)
    ∧ c.RequireAddr K = (none, env.keyError K)
    ∧ (∀ e : os.Environ, (e K = none ∨ e K = some []) → (env.DefaultClient e).Getenv K = []) := by
  refine ⟨?_, ?_, ?_, ?_, ?_, ?_, ?_, ?_, ?_, ?_⟩
  · simp [env.client.RequireBool, h, strconv.ParseBool_nil]
  · simp [env.client.RequireBytes, h]
  · simp [env.client.RequireFloat64, h, strconv.ParseFloat_nil]
  · simp [env.client.RequireDuration, h, time.ParseDuration_nil]
  · simp [env.client.RequireInt, h, strconv.Atoi_nil]
  · simp [env.client.RequireString, h]
  · intro seps
    simp [env.client.RequireStrings, h]
  · simp [env.client.RequireURL, h]
  · simp [env.client.RequireAddr, h]
  · intro e he
    rcases he with he | he <;> simp [env.DefaultClient, os.Getenv, he]

/-- Witness of C1: a variable that is not set, read through the default reader. -/
theorem require_empty_value_witness :
    (env.DefaultClient (oneVar (str "HOME") (str "/root"))).Getenv (str "PORT") = []
    ∧ (env.DefaultClient (oneVar (str "HOME") (str "/root"))).RequireInt (str "PORT")
        = (0, env.keyError (str "PORT")) :=
  ⟨by decide,
   (require_empty_value sampleLib (env.DefaultClient (oneVar (str "HOME") (str "/root")))
      (str "PORT") (by decide)).2.2.2.2.1⟩

/-! ## Values the parser rejects -/

/-- C2: when the parser of the target type rejects the raw value of `K`, each of
`RequireBool`, `RequireFloat64`, `RequireDuration` and `RequireInt` returns the zero
value with `keyError(K)`, which is the pair it returns on any reader `c0` where `K` has
no value; and whatever the raw value, the error of these four lookups is `nil` or
`keyError(K)`. -/
theorem require_unparsable_is_missing (L : Lib) (c c0 : env.client) (K : GoString)
    (h0 : c0.Getenv K = []) :
    ((strconv.ParseBool (c.Getenv K)).2 ≠ none →
        c.RequireBool K = (false, env.keyError K) ∧ c.RequireBool K = c0.RequireBool K)
    ∧ (strconv.ParseFloat L (c.Getenv K) = none →
        c.RequireFloat64 L K = (L.zero, env.keyError K)
        ∧ c.RequireFloat64 L K = c0.RequireFloat64 L K)
    ∧ (time.ParseDuration L (c.Getenv K) = none →
        c.RequireDuration L K = (0, env.keyError K)
        ∧ c.RequireDuration L K = c0.RequireDuration L K)
    ∧ ((strconv.Atoi (c.Getenv K)).2 ≠ none →
        c.RequireInt K = (0, env.keyError K) ∧ c.RequireInt K = c0.RequireInt K)
    ∧ ((c.RequireBool K).2 = none ∨ (c.RequireBool K).2 = env.keyError K)
    ∧ ((c.RequireFloat64 L K).2 = none ∨ (c.RequireFloat64 L K).2 = env.keyError K)
    ∧ ((c.RequireDuration L K).2 = none ∨ (c.RequireDuration L K).2 = env.keyError K)
    ∧ ((c.RequireInt K).2 = none ∨ (c.RequireInt K).2 = env.keyError K) := by
  have e0 := require_empty_value_aux L c0 K h0
  refine ⟨?_, ?_, ?_, ?_, ?_, ?_, ?_, ?_⟩
  · intro hp
    have : c.RequireBool K = (false, env.keyError K) := by
      unfold env.client.RequireBool
      rcases hb : strconv.ParseBool (c.Getenv K) with ⟨b, _ | er⟩
      · rw [hb] at hp; exact absurd rfl hp
      · rfl
    exact ⟨this, by rw [this, e0.1]⟩
  · intro hp
    have : c.RequireFloat64 L K = (L.zero, env.keyError K) := by
      simp [env.client.RequireFloat64, hp]
    exact ⟨this, by rw [this, e0.2.1]⟩
  · intro hp
    have : c.RequireDuration L K = (0, env.keyError K) := by
      simp [env.client.RequireDuration, hp]
    exact ⟨this, by rw [this, e0.2.2.1]⟩
  · intro hp
    have : c.RequireInt K = (0, env.keyError K) := by
      unfold env.client.RequireInt
      rcases hb : strconv.Atoi (c.Getenv K) with ⟨b, _ | er⟩
      · rw [hb] at hp; exact absurd rfl hp
      · rfl
    exact ⟨this, by rw [this, e0.2.2.2]⟩
  · unfold env.client.RequireBool
    rcases strconv.ParseBool (c.Getenv K) with ⟨b, _ | er⟩
    · exact Or.inl rfl
    · exact Or.inr rfl
  · unfold env.client.RequireFloat64
    rcases strconv.ParseFloat L (c.Getenv K) with _ | f
    · exact Or.inr rfl
    · exact Or.inl rfl
  · unfold env.client.RequireDuration
    rcases time.ParseDuration L (c.Getenv K) with _ | f
    · exact Or.inr rfl
    · exact Or.inl rfl
  · unfold env.client.RequireInt
    rcases strconv.Atoi (c.Getenv K) with ⟨b, _ | er⟩
    · exact Or.inl rfl
    · exact Or.inr rfl

/-- Witness of C2: the raw value `"abc"`, which all four parsers reject. -/
theorem require_unparsable_is_missing_witness :
    (constClient []).Getenv (str "N") = []
    ∧ (strconv.Atoi ((constClient (str "abc")).Getenv (str "N"))).2 ≠ none
    ∧ (constClient (str "abc")).RequireInt (str "N") = (0, env.keyError (str "N"))
    ∧ (constClient (str "abc")).RequireInt (str "N") = (constClient []).RequireInt (str "N") :=
  ⟨by decide, by decide,
   (require_unparsable_is_missing sampleLib (constClient (str "abc")) (constClient [])
      (str "N") (by decide)).2.2.2.1 (by decide)⟩

/-! ## Success and the zero value -/

theorem utf8.runeCountLoop_ge (fuel : Nat) : ∀ (s : GoString) (n : Nat),
    n ≤ utf8.runeCountLoop fuel s n := by
  induction fuel with
  | zero => intro s n; simp [utf8.runeCountLoop]
  | succ f ih =>
    intro s n
    unfold utf8.runeCountLoop
    split
    · exact Nat.le_refl n
    · exact Nat.le_trans (Nat.le_succ n) (ih _ _)

theorem utf8.RuneCountInString_pos (s : GoString) (h : s ≠ []) :
    0 < utf8.RuneCountInString s := by
  cases s with
  | nil => exact absurd rfl h
  | cons a t =>
    unfold utf8.RuneCountInString
    simp only [List.length_cons, utf8.runeCountLoop]
    rw [if_neg (by simp)]
    exact Nat.lt_of_lt_of_le (Nat.succ_pos 0) (utf8.runeCountLoop_ge _ _ _)

theorem strings.explodeLoop_ne_nil (k : Nat) (s : GoString) : strings.explodeLoop k s ≠ [] := by
  cases k <;> simp [strings.explodeLoop]

theorem strings.genSplitLoop_ne_nil (sep : GoString) (k : Nat) (s : GoString) :
    strings.genSplitLoop sep k s ≠ [] := by
  cases k with
  | zero => simp [strings.genSplitLoop]
  | succ k =>
    unfold strings.genSplitLoop
    split <;> simp

theorem strings.Split_ne_nil (s sep : GoString) (h : s ≠ []) : strings.Split s sep ≠ [] := by
  unfold strings.Split
  split
  · unfold strings.explode
    simp only [utf8.RuneCountInString_pos s h, if_true]
    exact strings.explodeLoop_ne_nil _ _
  · exact strings.genSplitLoop_ne_nil _ _ _

/-- C3, as stated, fails: with the raw values `"false"` and `"0"` the lookups
`RequireBool`, `RequireInt` and `RequireDuration` succeed and return the zero value. -/
theorem success_with_zero_value :
    (constClient (str "false")).RequireBool (str "DEBUG") = (false, none)
    ∧ (constClient (str "0")).RequireInt (str "RETRIES") = (0, none)
    ∧ (constClient (str "0")).RequireDuration sampleLib (str "DELAY") = (0, none) := by
  decide

/-- C3, amended: a lookup that returns no error had a non-empty raw value; for
`RequireString`, `RequireBytes`, `RequireStrings` and `RequireAddr` the value returned
is then not the zero value; `RequireBool`, `RequireInt`, `RequireFloat64` and
`RequireDuration` return what the parser read, whatever it is. -/
theorem success_implies_present (L : Lib) (c : env.client) (K : GoString) :
    ((c.RequireBool K).2 = none →
        c.Getenv K ≠ [] ∧ strconv.ParseBool (c.Getenv K) = ((c.RequireBool K).1, none))
    ∧ ((c.RequireInt K).2 = none →
        c.Getenv K ≠ [] ∧ strconv.Atoi (c.Getenv K) = ((c.RequireInt K).1, none))
    ∧ ((c.RequireFloat64 L K).2 = none →
        c.Getenv K ≠ [] ∧ strconv.ParseFloat L (c.Getenv K) = some (c.RequireFloat64 L K).1)
    ∧ ((c.RequireDuration L K).2 = none →
        c.Getenv K ≠ [] ∧ time.ParseDuration L (c.Getenv K) = some (c.RequireDuration L K).1)
    ∧ ((c.RequireString K).2 = none → c.Getenv K ≠ [] ∧ (c.RequireString K).1 ≠ str "")
    ∧ ((c.RequireBytes K).2 = none → c.Getenv K ≠ [] ∧ (c.RequireBytes K).1 ≠ [])
    ∧ (∀ seps, (c.RequireStrings K seps).2 = none →
        c.Getenv K ≠ [] ∧ (c.RequireStrings K seps).1 ≠ [])
    ∧ ((c.RequireAddr K).2 = none → c.Getenv K ≠ [] ∧ (c.RequireAddr K).1 ≠ none)
    ∧ ((c.RequireURL L K).2 = none → c.Getenv K ≠ []) := by
  have hk := env.keyError_ne_nil K
  refine ⟨?_, ?_, ?_, ?_, ?_, ?_, ?_, ?_, ?_⟩
  · unfold env.client.RequireBool
    rcases hb : strconv.ParseBool (c.Getenv K) with ⟨b, _ | er⟩
    · intro _
      refine ⟨?_, rfl⟩
      intro hv
      rw [hv, strconv.ParseBool_nil] at hb
      simp at hb
    · intro h; exact absurd h hk
  · unfold env.client.RequireInt
    rcases hb : strconv.Atoi (c.Getenv K) with ⟨b, _ | er⟩
    · intro _
      refine ⟨?_, rfl⟩
      intro hv
      rw [hv, strconv.Atoi_nil] at hb
      simp at hb
    · intro h; exact absurd h hk
  · unfold env.client.RequireFloat64
    rcases hb : strconv.ParseFloat L (c.Getenv K) with _ | f
    · intro h; exact absurd h hk
    · intro _
      refine ⟨?_, rfl⟩
      intro hv
      rw [hv, strconv.ParseFloat_nil] at hb
      simp at hb
  · unfold env.client.RequireDuration
    rcases hb : time.ParseDuration L (c.Getenv K) with _ | f
    · intro h; exact absurd h hk
    · intro _
      refine ⟨?_, rfl⟩
      intro hv
      rw [hv, time.ParseDuration_nil] at hb
      simp at hb
  · unfold env.client.RequireString
    by_cases hv : c.Getenv K = []
    · simp only [hv, ne_eq, not_true_eq_false, if_false]
      intro h; exact absurd h hk
    · simp only [ne_eq, hv, not_false_eq_true, if_true]
      intro _; exact ⟨trivial, by simpa [str] using hv⟩
  · unfold env.client.RequireBytes
    by_cases hv : c.Getenv K = []
    · simp only [hv, ne_eq, not_true_eq_false, if_false]
      intro h; exact absurd h hk
    · simp only [ne_eq, hv, not_false_eq_true, if_true, env.bytesOf]
      intro _; exact ⟨trivial, trivial⟩
  · intro seps
    unfold env.client.RequireStrings
    by_cases hv : c.Getenv K = []
    · simp only [hv, ne_eq, not_true_eq_false, if_false]
      intro h; exact absurd h hk
    · simp only [ne_eq, hv, not_false_eq_true, if_true]
      intro _; exact ⟨trivial, strings.Split_ne_nil _ _ hv⟩
  · unfold env.client.RequireAddr
    by_cases hv : c.Getenv K = []
    · simp only [hv, ne_eq, not_true_eq_false, if_false]
      intro h; exact absurd h hk
    · simp only [ne_eq, hv, not_false_eq_true, if_true]
      rcases net.ParseIP (c.Getenv K) with _ | a
      · intro h; simp [errors.New] at h
      · intro _; exact ⟨trivial, by simp⟩
  · unfold env.client.RequireURL
    by_cases hv : c.Getenv K = []
    · simp only [hv, ne_eq, not_true_eq_false, if_false]
      intro h; exact absurd h hk
    · intro _; exact hv

/-- Witness of C3 amended: the address `"10.0.0.1"` is read without error and the
address returned is not `nil`. -/
theorem success_implies_present_witness :
    ((constClient (str "10.0.0.1")).RequireAddr (str "HOST")).2 = none
    ∧ (constClient (str "10.0.0.1")).Getenv (str "HOST") ≠ []
    ∧ ((constClient (str "10.0.0.1")).RequireAddr (str "HOST")).1 ≠ none :=
  ⟨by decide,
   (success_implies_present sampleLib (constClient (str "10.0.0.1"))
      (str "HOST")).2.2.2.2.2.2.2.1 (by decide)⟩

/-! ## URL and address lookups -/

/-- C4: on a non-empty raw value `RequireURL` returns the URL the parser produced
(possibly `nil`) with a `nil` error, whether or not the parser reported an error; so
`RequireURL` returns an error exactly when the raw value is empty, and that error is
`keyError(K)`. -/
theorem requireURL_error_iff_empty (L : Lib) (c : env.client) (K : GoString) :
    (c.Getenv K ≠ [] → c.RequireURL L K = ((L.urlParse (c.Getenv K)).1, none))
    ∧ ((c.RequireURL L K).2 ≠ none ↔ c.Getenv K = [])
    ∧ (c.Getenv K = [] → (c.RequireURL L K).2 = env.keyError K) := by
  have hk := env.keyError_ne_nil K
  have hne : c.Getenv K ≠ [] → c.RequireURL L K = ((L.urlParse (c.Getenv K)).1, none) := by
    intro hv
    unfold env.client.RequireURL
    simp only [ne_eq, hv, not_false_eq_true, if_true]
    rcases L.urlParse (c.Getenv K) with ⟨u, _ | er⟩ <;> rfl
  have hem : c.Getenv K = [] → c.RequireURL L K = (none, env.keyError K) := by
    intro hv
    simp [env.client.RequireURL, hv]
  refine ⟨hne, ?_, ?_⟩
  · constructor
    · intro h
      by_contra hv
      rw [hne hv] at h
      exact h rfl
    · intro hv
      rw [hem hv]
      exact hk
  · intro hv
    rw [hem hv]

/-- Witness of C4: a text with a line feed, which the URL parser rejects, is read
without an error and the URL returned is `nil`. -/
theorem requireURL_error_iff_empty_witness :
    (constClient (str "http://a\nb")).Getenv (str "ENDPOINT") ≠ []
    ∧ (sampleLib.urlParse (str "http://a\nb")).2 ≠ none
    ∧ (constClient (str "http://a\nb")).RequireURL sampleLib (str "ENDPOINT") = (none, none) :=
  ⟨by decide, by decide,
   (requireURL_error_iff_empty sampleLib (constClient (str "http://a\nb"))
      (str "ENDPOINT")).1 (by decide)⟩

/-- C5: when the raw value of `K` is not empty and is not a valid textual IP address,
`RequireAddr` returns no address and an error whose message is `K` followed by
`" is not a valid address"`; this error differs from `keyError(K)`. -/
theorem requireAddr_invalid (c : env.client) (K : GoString)
    (hne : c.Getenv K ≠ []) (hbad : net.ParseIP (c.Getenv K) = none) :
    c.RequireAddr K = (none, errors.New (K ++ str " is not a valid address"))
    ∧ errors.New (K ++ str " is not a valid address") ≠ env.keyError K := by
  constructor
  · simp [env.client.RequireAddr, hne, hbad]
  · unfold env.keyError errors.New
    intro h
    have h2 := List.append_cancel_left (Option.some.inj h)
    revert h2
    decide

/-- Witness of C5: the raw value `"not-an-ip"`. -/
theorem requireAddr_invalid_witness :
    (constClient (str "not-an-ip")).RequireAddr (str "HOST")
      = (none, errors.New (str "HOST is not a valid address"))
    ∧ errors.New (str "HOST is not a valid address") ≠ env.keyError (str "HOST") :=
  requireAddr_invalid (constClient (str "not-an-ip")) (str "HOST") (by decide) (by decide)

/-! ## Strings and bytes -/

/-- C9: `RequireString` returns no error exactly when the raw value is not empty, and
then it returns the raw value itself, byte for byte; a value made only of white space
is not empty and so counts as present. -/
theorem requireString_iff_nonempty (c : env.client) (K : GoString) :
    ((c.RequireString K).2 = none ↔ c.Getenv K ≠ [])
    ∧ (c.Getenv K ≠ [] → c.RequireString K = (c.Getenv K, none))
    ∧ (c.Getenv K = [] → c.RequireString K = (str "", env.keyError K)) := by
  have hk := env.keyError_ne_nil K
  unfold env.client.RequireString
  by_cases hv : c.Getenv K = []
  · simp [hv, hk]
  · simp [hv]

/-- Witness of C9: a raw value of two spaces and a tab is returned as it is. -/
theorem requireString_iff_nonempty_witness :
    (constClient (str "  \t")).Getenv (str "NAME") ≠ []
    ∧ (constClient (str "  \t")).RequireString (str "NAME") = (str "  \t", none) :=
  ⟨by decide,
   (requireString_iff_nonempty (constClient (str "  \t")) (str "NAME")).2.1 (by decide)⟩

/-- C10: on a non-empty raw value `v`, `RequireBytes` returns with no error the bytes
of `v`; converting them back to a string gives `v`; and `RequireBytes` returns no
error exactly when `RequireString` returns none. -/
theorem requireBytes_exact (c : env.client) (K : GoString) :
    (c.Getenv K ≠ [] →
        c.RequireBytes K = (env.bytesOf (c.Getenv K), none)
        ∧ env.stringOf (c.RequireBytes K).1 = c.Getenv K)
    ∧ ((c.RequireBytes K).2 = none ↔ (c.RequireString K).2 = none) := by
  have hk := env.keyError_ne_nil K
  unfold env.client.RequireBytes env.client.RequireString
  by_cases hv : c.Getenv K = []
  · simp [hv, hk]
  · simp [hv, env.bytesOf, env.stringOf]

/-- Witness of C10: base64-looking text is returned undecoded. -/
theorem requireBytes_exact_witness :
    (constClient (str "aGVsbG8=")).Getenv (str "SECRET") ≠ []
    ∧ (constClient (str "aGVsbG8=")).RequireBytes (str "SECRET") = (str "aGVsbG8=", none)
    ∧ env.stringOf ((constClient (str "aGVsbG8=")).RequireBytes (str "SECRET")).1
        = str "aGVsbG8=" :=
  ⟨by decide,
   (requireBytes_exact (constClient (str "aGVsbG8=")) (str "SECRET")).1 (by decide)⟩

/-! ## Booleans -/

theorem strconv.ParseBool_true (s : GoString)
    (h : s ∈ [str "1", str "t", str "T", str "true", str "TRUE", str "True"]) :
    strconv.ParseBool s = (true, none) := by
  simp only [List.mem_cons, List.mem_singleton, List.not_mem_nil, or_false] at h
  rcases h with rfl | rfl | rfl | rfl | rfl | rfl <;> decide

theorem strconv.ParseBool_false (s : GoString)
    (h : s ∈ [str "0", str "f", str "F", str "false", str "FALSE", str "False"]) :
    strconv.ParseBool s = (false, none) := by
  simp only [List.mem_cons, List.mem_singleton, List.not_mem_nil, or_false] at h
  rcases h with rfl | rfl | rfl | rfl | rfl | rfl <;> decide

theorem strconv.ParseBool_other (s : GoString)
    (ht : s ∉ [str "1", str "t", str "T", str "true", str "TRUE", str "True"])
    (hf : s ∉ [str "0", str "f", str "F", str "false", str "FALSE", str "False"]) :
    strconv.ParseBool s = (false, some strconv.Err.ErrSyntax) := by
  simp only [List.mem_cons, List.mem_singleton, List.not_mem_nil, or_false] at ht hf
  unfold strconv.ParseBool
  rw [if_neg ht, if_neg hf]

/-- C7, as stated, fails: `"tRuE"` equals `"true"` under case-insensitive comparison,
yet `RequireBool` rejects it. -/
theorem requireBool_mixed_case_rejected :
    strconv.lowerASCII (str "tRuE") = str "true"
    ∧ (constClient (str "tRuE")).RequireBool (str "DEBUG")
        = (false, env.keyError (str "DEBUG")) := by
  decide

/-- C7, amended: `RequireBool` returns `true` with no error exactly for the six
spellings `1`, `t`, `T`, `true`, `TRUE`, `True`, returns `false` with no error exactly
for `0`, `f`, `F`, `false`, `FALSE`, `False`, and returns `(false, keyError(K))` for
every other raw value, other mixtures of upper and lower case included. -/
theorem requireBool_twelve_spellings (c : env.client) (K : GoString) :
    (c.Getenv K ∈ [str "1", str "t", str "T", str "true", str "TRUE", str "True"]
        ↔ c.RequireBool K = (true, none))
    ∧ (c.Getenv K ∈ [str "0", str "f", str "F", str "false", str "FALSE", str "False"]
        ↔ c.RequireBool K = (false, none))
    ∧ ((c.Getenv K ∉ [str "1", str "t", str "T", str "true", str "TRUE", str "True"]
          ∧ c.Getenv K ∉ [str "0", str "f", str "F", str "false", str "FALSE", str "False"])
        ↔ c.RequireBool K = (false, env.keyError K)) := by
  have hk := env.keyError_ne_nil K
  by_cases ht : c.Getenv K ∈ [str "1", str "t", str "T", str "true", str "TRUE", str "True"]
  · have hr : c.RequireBool K = (true, none) := by
      simp [env.client.RequireBool, strconv.ParseBool_true _ ht]
    have hf : c.Getenv K ∉
        [str "0", str "f", str "F", str "false", str "FALSE", str "False"] := by
      intro hf
      have h1 := strconv.ParseBool_true _ ht
      rw [strconv.ParseBool_false _ hf] at h1
      simp at h1
    simp [hr, ht, hf]
  · by_cases hf : c.Getenv K ∈
        [str "0", str "f", str "F", str "false", str "FALSE", str "False"]
    · have hr : c.RequireBool K = (false, none) := by
        simp [env.client.RequireBool, strconv.ParseBool_false _ hf]
      simp only [hr, ht, hf, true_iff, false_iff, not_true_eq_false, and_false]
      refine ⟨by simp, trivial, ?_⟩
      intro h
      exact hk (congrArg Prod.snd h).symm
    · have hr : c.RequireBool K = (false, env.keyError K) := by
        simp [env.client.RequireBool, strconv.ParseBool_other _ ht hf]
      simp only [hr, ht, hf, false_iff, not_false_eq_true, and_self, true_iff]
      refine ⟨by simp, ?_, trivial⟩
      intro h
      exact hk (congrArg Prod.snd h)

/-- Witness of C7 amended: the spelling `"TRUE"`. -/
theorem requireBool_twelve_spellings_witness :
    (constClient (str "TRUE")).RequireBool (str "DEBUG") = (true, none) :=
  (requireBool_twelve_spellings (constClient (str "TRUE")) (str "DEBUG")).1.mp (by decide)

/-! ## Integers -/

/-- The byte of the decimal digit `d`. -/
theorem strconv.digitChar_byte : ∀ d : Nat, d < 10 →
    (Fin.ofNat (Nat.digitChar d).toNat : byte) = Fin.ofNat (48 + d) := by
  decide

/-- Induction along the digits of `strconv.decimal`: a property that holds for the
one-digit texts and is kept when a digit is appended holds for every `decimal n`. -/
theorem strconv.decimal_induction (P : Nat → GoString → Prop)
    (h1 : ∀ n, n < 10 → P n [Fin.ofNat (48 + n)])
    (h2 : ∀ n xs, 10 ≤ n → P (n / 10) xs → P n (xs ++ [Fin.ofNat (48 + n % 10)])) :
    ∀ n, P n (strconv.decimal n) := by
  have core : ∀ fuel n, n < fuel → ∀ ds : List Char,
      ∃ xs, P n xs ∧ (Nat.toDigitsCore 10 fuel n ds).map (fun ch => (Fin.ofNat ch.toNat : byte))
        = xs ++ ds.map (fun ch => (Fin.ofNat ch.toNat : byte)) := by
    intro fuel
    induction fuel with
    | zero => intro n hn; omega
    | succ f ih =>
      intro n hn ds
      unfold Nat.toDigitsCore
      by_cases h0 : n / 10 = 0
      · have hlt : n < 10 := by omega
        refine ⟨[Fin.ofNat (48 + n)], h1 n hlt, ?_⟩
        simp only [h0, if_true, List.map_cons, List.singleton_append]
        rw [Nat.mod_eq_of_lt hlt, strconv.digitChar_byte n hlt]
      · have hge : 10 ≤ n := by omega
        have hlt : n / 10 < f := by omega
        obtain ⟨xs, hP, hxs⟩ := ih (n / 10) hlt (Nat.digitChar (n % 10) :: ds)
        refine ⟨xs ++ [Fin.ofNat (48 + n % 10)], h2 n xs hge hP, ?_⟩
        simp only [h0, if_false]
        rw [hxs]
        simp only [List.map_cons, List.append_assoc, List.singleton_append]
        rw [strconv.digitChar_byte (n % 10) (Nat.mod_lt _ (by decide))]
  intro n
  obtain ⟨xs, hP, hxs⟩ := core (n + 1) n (Nat.lt_succ_self n) []
  unfold strconv.decimal Nat.toDigits
  rw [hxs]
  simpa using hP

theorem strconv.atoiFast_append (xs ys : GoString) : ∀ acc : Int,
    strconv.atoiFast (xs ++ ys) acc = (strconv.atoiFast xs acc).bind (strconv.atoiFast ys) := by
  induction xs with
  | nil => intro acc; simp [strconv.atoiFast]
  | cons x xs ih =>
    intro acc
    simp only [List.cons_append, strconv.atoiFast]
    split
    · rfl
    · exact ih _

theorem strconv.parseUintLoop_append (cutoff maxVal : Nat) (xs ys : GoString) :
    ∀ n m : Nat, strconv.parseUintLoop cutoff maxVal xs n = (m, none) →
      strconv.parseUintLoop cutoff maxVal (xs ++ ys) n
        = strconv.parseUintLoop cutoff maxVal ys m := by
  induction xs with
  | nil =>
    intro n m h
    simp only [strconv.parseUintLoop, Prod.mk.injEq, and_true] at h
    simp [h]
  | cons x xs ih =>
    intro n m h
    simp only [List.cons_append]
    rw [strconv.parseUintLoop] at h ⊢
    split at h
    · simp at h
    · rename_i d hd
      simp only [] at h ⊢
      split at h
      · simp at h
      · split at h
        · simp at h
        · split at h
          · simp at h
          · rename_i h1 h2 h3
            rw [if_neg h1, if_neg h2, if_neg h3]
            exact ih _ _ h

theorem strconv.atoiFast_digit (d : Nat) (hd : d < 10) (acc : Int) :
    strconv.atoiFast [Fin.ofNat (48 + d)] acc = some (acc * 10 + (d : Int)) := by
  have hval : ((Fin.ofNat (48 + d) : byte)).val = 48 + d := by
    simp [Fin.ofNat]; omega
  simp only [strconv.atoiFast, hval]
  have : (48 + d + 256 - 48) % 256 = d := by omega
  rw [this, if_neg (by omega)]

theorem strconv.digitVal_digit (d : Nat) (hd : d < 10) :
    strconv.digitVal (Fin.ofNat (48 + d)) = some d := by
  have hval : ((Fin.ofNat (48 + d) : byte)).val = 48 + d := by
    simp [Fin.ofNat]; omega
  unfold strconv.digitVal
  rw [hval, if_pos (by omega)]
  simp

/-- What the two digit loops of `Atoi` compute on `decimal n`, and the shape of the
text. -/
theorem strconv.decimal_spec (n : Nat) :
    strconv.atoiFast (strconv.decimal n) 0 = some (n : Int)
    ∧ (n < 2 ^ 64 →
        strconv.parseUintLoop ((2 ^ 64 - 1) / 10 + 1) (2 ^ 64 - 1) (strconv.decimal n) 0
          = (n, none))
    ∧ strconv.decimal n ≠ []
    ∧ (∀ b, (strconv.decimal n).head? = some b → 48 ≤ b.val ∧ b.val ≤ 57) := by
  refine strconv.decimal_induction
    (fun n xs => strconv.atoiFast xs 0 = some (n : Int)
      ∧ (n < 2 ^ 64 →
          strconv.parseUintLoop ((2 ^ 64 - 1) / 10 + 1) (2 ^ 64 - 1) xs 0 = (n, none))
      ∧ xs ≠ []
      ∧ (∀ b, xs.head? = some b → 48 ≤ b.val ∧ b.val ≤ 57)) ?_ ?_ n
  · intro n hn
    have hval : ((Fin.ofNat (48 + n) : byte)).val = 48 + n := by
      simp [Fin.ofNat]; omega
    refine ⟨?_, ?_, by simp, ?_⟩
    · rw [strconv.atoiFast_digit n hn]; simp
    · intro _
      unfold strconv.parseUintLoop
      rw [strconv.digitVal_digit n hn]
      simp only []
      rw [if_neg (by omega), if_neg (by norm_num)]
      have e1 : (0 * 10 % 2 ^ 64 + n) % 2 ^ 64 = n := by
        norm_num; omega
      rw [e1, if_neg (by norm_num; omega)]
      simp [strconv.parseUintLoop]
    · intro b hb
      simp only [List.head?_cons, Option.some.injEq] at hb
      subst hb
      rw [hval]; omega
  · intro n xs hge ⟨ha, hp, hne, hh⟩
    have hd : n % 10 < 10 := Nat.mod_lt _ (by decide)
    refine ⟨?_, ?_, by simp, ?_⟩
    · rw [strconv.atoiFast_append, ha]
      simp only [Option.some_bind]
      rw [strconv.atoiFast_digit _ hd]
      congr 1
      omega
    · intro hn
      have hn10 : n / 10 < 2 ^ 64 := by omega
      rw [strconv.parseUintLoop_append _ _ _ _ _ _ (hp hn10)]
      unfold strconv.parseUintLoop
      rw [strconv.digitVal_digit _ hd]
      simp only []
      have hc : ¬ n / 10 ≥ (2 ^ 64 - 1) / 10 + 1 := by
        norm_num at hn ⊢; omega
      rw [if_neg (by omega), if_neg hc]
      have e0 : n / 10 * 10 % 2 ^ 64 = n / 10 * 10 := by
        apply Nat.mod_eq_of_lt; norm_num at hn ⊢; omega
      have e1 : (n / 10 * 10 + n % 10) % 2 ^ 64 = n := by
        have : n / 10 * 10 + n % 10 = n := by omega
        rw [this]; exact Nat.mod_eq_of_lt hn
      rw [e0, e1, if_neg (by norm_num at hn ⊢; omega)]
      simp [strconv.parseUintLoop]
    · intro b hb
      cases xs with
      | nil => exact absurd rfl hne
      | cons x xs =>
        simp only [List.cons_append, List.head?_cons, Option.some.injEq] at hb
        exact hh b (by simp [hb])

theorem strconv.ParseUint_decimal (m : Nat) (hm : m < 2 ^ 64) :
    strconv.ParseUint (strconv.decimal m) 0 = (m, none) := by
  obtain ⟨_, hp, hne, _⟩ := strconv.decimal_spec m
  unfold strconv.ParseUint
  rw [if_neg hne]
  simp only [strconv.intSize, if_true]
  exact hp hm

/-- The text `Itoa n` of an integer in the range of a 64-bit `int` is read back by
`Atoi` as `n`. -/
theorem strconv.Atoi_Itoa (n : Int) (hlo : -2 ^ 63 ≤ n) (hhi : n ≤ 2 ^ 63 - 1) :
    strconv.Atoi (strconv.Itoa n) = (n, none) := by
  by_cases hneg : n < 0
  · -- a minus sign followed by the digits of the absolute value
    obtain ⟨ha, _, hne, _⟩ := strconv.decimal_spec n.natAbs
    have hm : n.natAbs ≤ 2 ^ 63 := by omega
    have hn : -(n.natAbs : Int) = n := by omega
    have hs : strconv.Itoa n = 45 :: strconv.decimal n.natAbs := by
      simp [strconv.Itoa, hneg]
    have hlen : ¬ (strconv.decimal n.natAbs).length < 1 := by
      cases hd : strconv.decimal n.natAbs with
      | nil => exact absurd hd hne
      | cons x xs => simp
    rw [hs]
    unfold strconv.Atoi
    split
    · simp only [List.head?_cons, true_or, List.tail_cons, if_true, hlen, and_false,
        if_false, ha, hn]
    · unfold strconv.ParseInt
      simp only [List.head?_cons, or_true, List.tail_cons, if_true,
        strconv.ParseUint_decimal n.natAbs (by omega), strconv.intSize]
      rw [if_neg (by simp)]
      simp only [true_and, not_true_eq_false, false_and, if_false]
      rw [if_neg (by norm_num; omega)]
      simp only [if_true, hn]
  · -- the digits of a non-negative integer
    obtain ⟨ha, _, hne, hh⟩ := strconv.decimal_spec n.toNat
    have hm : n.toNat < 2 ^ 63 := by omega
    have hn : (n.toNat : Int) = n := by omega
    have hs : strconv.Itoa n = strconv.decimal n.toNat := by
      simp [strconv.Itoa, hneg]
    have h45 : (strconv.decimal n.toNat).head? ≠ some 45 := by
      intro h
      have := (hh _ h).1
      revert this
      decide
    have h43 : (strconv.decimal n.toNat).head? ≠ some 43 := by
      intro h
      have := (hh _ h).1
      revert this
      decide
    rw [hs]
    unfold strconv.Atoi
    split
    · simp only [h45, h43, or_self, false_and, if_false, ha, hn]
    · unfold strconv.ParseInt
      rw [if_neg hne]
      simp only [h45, h43, or_self, if_false,
        strconv.ParseUint_decimal n.toNat (by omega), strconv.intSize]
      rw [if_neg (by norm_num; omega)]
      simp [hn]

/-- C6: when the raw value of `K` is the canonical base-10 text of an integer `n` in the
signed 64-bit range, `RequireInt` returns `n` with no error. -/
theorem requireInt_roundtrip (c : env.client) (K : GoString) (n : Int)
    (hlo : -2 ^ 63 ≤ n) (hhi : n ≤ 2 ^ 63 - 1) (hv : c.Getenv K = strconv.Itoa n) :
    c.RequireInt K = (n, none) := by
  unfold env.client.RequireInt
  rw [hv, strconv.Atoi_Itoa n hlo hhi]

/-- Witness of C6: the least 64-bit integer, a text of twenty bytes. -/
theorem requireInt_roundtrip_witness :
    strconv.Itoa (-9223372036854775808) = str "-9223372036854775808"
    ∧ (constClient (str "-9223372036854775808")).RequireInt (str "OFFSET")
        = (-9223372036854775808, none) :=
  ⟨by decide,
   requireInt_roundtrip (constClient (str "-9223372036854775808")) (str "OFFSET")
     (-9223372036854775808) (by decide) (by decide) (by decide)⟩

/-! ## String lists -/

theorem strings.Index_cons_none (a : byte) (p sep : GoString)
    (h : strings.Index (a :: p) sep = none) :
    sep.isPrefixOf (a :: p) = false ∧ strings.Index p sep = none := by
  unfold strings.Index at h
  by_cases hp : sep.isPrefixOf (a :: p) = true
  · rw [if_pos hp] at h
    simp at h
  · rw [if_neg hp] at h
    refine ⟨by rw [← Bool.not_eq_true]; exact hp, ?_⟩
    cases hi : strings.Index p sep with
    | none => rfl
    | some i => rw [hi] at h; simp at h

/-- A separator whose first byte does not occur again in it is found, in a text that
starts with a piece free of the separator followed by the separator, right after the
piece. -/
theorem strings.Index_piece_sep (b : byte) (tl : GoString) (hb : b ∉ tl) (rest : GoString) :
    ∀ p : GoString, strings.Index p (b :: tl) = none →
      strings.Index (p ++ (b :: tl) ++ rest) (b :: tl) = some p.length := by
  intro p
  induction p with
  | nil =>
    intro _
    have hpre : (b :: tl).isPrefixOf (b :: tl ++ rest) = true := by
      rw [List.isPrefixOf_iff_prefix]
      exact List.prefix_append _ _
    simp only [List.nil_append, List.length_nil]
    rw [List.cons_append] at hpre ⊢
    unfold strings.Index
    rw [if_pos hpre]
  | cons a p ih =>
    intro h
    obtain ⟨hnp, hip⟩ := strings.Index_cons_none a p _ h
    have hno : ¬ (b :: tl).isPrefixOf (a :: (p ++ (b :: tl) ++ rest)) = true := by
      intro hpre
      rw [List.isPrefixOf_iff_prefix] at hpre
      have hq : (a :: p) <+: a :: (p ++ (b :: tl) ++ rest) := by
        simp
      by_cases hlen : (b :: tl).length ≤ (a :: p).length
      · have h1 : (b :: tl) <+: (a :: p) := List.prefix_of_prefix_length_le hpre hq hlen
        rw [← List.isPrefixOf_iff_prefix] at h1
        rw [h1] at hnp
        exact Bool.noConfusion hnp
      · have h1 : (a :: p) <+: (b :: tl) :=
          List.prefix_of_prefix_length_le hq hpre (by omega)
        obtain ⟨t, ht⟩ := h1
        have hab : a = b := by
          have := congrArg List.head? ht
          simpa using this
        have htl : p ++ t = tl := by
          have := congrArg List.tail ht
          simpa using this
        have ht2 : t <+: (b :: tl) ++ rest := by
          have h3 : (a :: p) ++ t <+: (a :: p) ++ ((b :: tl) ++ rest) := by
            rw [ht]
            simpa [List.append_assoc] using hpre
          exact (List.prefix_append_right_inj _).mp h3
        cases t with
        | nil =>
          have : (a :: p).length = (b :: tl).length := by rw [← ht]; simp
          omega
        | cons c t' =>
          have hcb : c = b := by
            obtain ⟨u, hu⟩ := ht2
            have := congrArg List.head? hu
            simpa using this
          apply hb
          rw [← htl, hcb]
          simp
    simp only [List.cons_append, List.length_cons]
    have hrec := ih hip
    simp only [List.cons_append] at hrec
    rw [strings.Index, if_neg hno, hrec]
    rfl

theorem strings.Join_cons_cons (p q : GoString) (ps : List GoString) (sep : GoString) :
    strings.Join (p :: q :: ps) sep = p ++ sep ++ strings.Join (q :: ps) sep := by
  simp [strings.Join]

/-- The loop of `genSplit` gives back the pieces of a joined text when it is allowed
enough rounds. -/
theorem strings.genSplitLoop_Join (b : byte) (tl : GoString) (hb : b ∉ tl) :
    ∀ (ps : List GoString) (p : GoString) (k : Nat),
      (∀ q ∈ p :: ps, strings.Index q (b :: tl) = none) → ps.length ≤ k →
      strings.genSplitLoop (b :: tl) k (strings.Join (p :: ps) (b :: tl)) = p :: ps := by
  intro ps
  induction ps with
  | nil =>
    intro p k hq _
    have hp : strings.Index p (b :: tl) = none := hq p (by simp)
    cases k with
    | zero => simp [strings.genSplitLoop, strings.Join]
    | succ k => simp [strings.genSplitLoop, strings.Join, hp]
  | cons q ps ih =>
    intro p k hq hk
    have hp : strings.Index p (b :: tl) = none := hq p (by simp)
    cases k with
    | zero => simp at hk
    | succ k =>
      rw [strings.Join_cons_cons, strings.genSplitLoop,
        strings.Index_piece_sep b tl hb _ p hp]
      simp only [List.append_assoc, List.take_left, List.cons.injEq, true_and]
      have hdrop : List.drop (p.length + (b :: tl).length)
          (p ++ ((b :: tl) ++ strings.Join (q :: ps) (b :: tl)))
          = strings.Join (q :: ps) (b :: tl) := by
        rw [← List.append_assoc, ← List.length_append, List.drop_left]
      rw [hdrop]
      exact ih q k (fun r hr => hq r (List.mem_cons_of_mem _ hr))
        (by simpa using hk)

/-- The general loop of `Count` finds one instance per separator of a joined text. -/
theorem strings.countLoop_Join (b : byte) (tl : GoString) (hb : b ∉ tl) :
    ∀ (ps : List GoString) (p : GoString) (fuel acc : Nat),
      (∀ q ∈ p :: ps, strings.Index q (b :: tl) = none) → ps.length ≤ fuel →
      strings.countLoop (b :: tl) fuel (strings.Join (p :: ps) (b :: tl)) acc
        = acc + ps.length := by
  intro ps
  induction ps with
  | nil =>
    intro p fuel acc hq _
    have hp : strings.Index p (b :: tl) = none := hq p (by simp)
    cases fuel with
    | zero => simp [strings.countLoop]
    | succ k => simp [strings.countLoop, strings.Join, hp]
  | cons q ps ih =>
    intro p fuel acc hq hk
    have hp : strings.Index p (b :: tl) = none := hq p (by simp)
    cases fuel with
    | zero => simp at hk
    | succ k =>
      rw [strings.Join_cons_cons, strings.countLoop,
        strings.Index_piece_sep b tl hb _ p hp]
      simp only [List.append_assoc]
      have hdrop : List.drop (p.length + (b :: tl).length)
          (p ++ ((b :: tl) ++ strings.Join (q :: ps) (b :: tl)))
          = strings.Join (q :: ps) (b :: tl) := by
        rw [← List.append_assoc, ← List.length_append, List.drop_left]
      rw [hdrop, ih q k (acc + 1) (fun r hr => hq r (List.mem_cons_of_mem _ hr))
        (by simpa using hk)]
      simp only [List.length_cons]
      omega

theorem strings.Join_length (sep : GoString) (hsep : sep ≠ []) :
    ∀ (ps : List GoString) (p : GoString),
      ps.length ≤ (strings.Join (p :: ps) sep).length := by
  intro ps
  induction ps with
  | nil => intro p; simp
  | cons q ps ih =>
    intro p
    rw [strings.Join_cons_cons]
    have := ih q
    have hl : 0 < sep.length := List.length_pos.mpr hsep
    simp only [List.length_append, List.length_cons]
    omega

theorem strings.Index_single_none (b : byte) :
    ∀ p : GoString, strings.Index p [b] = none → p.count b = 0 := by
  intro p
  induction p with
  | nil => intro _; simp
  | cons a p ih =>
    intro h
    obtain ⟨hnp, hip⟩ := strings.Index_cons_none a p _ h
    have hab : ¬ a = b := by
      intro hab
      subst hab
      simp [List.isPrefixOf] at hnp
    rw [List.count_cons, ih hip]
    simp [hab]

theorem strings.count_Join (b : byte) :
    ∀ (ps : List GoString) (p : GoString),
      (∀ q ∈ p :: ps, strings.Index q [b] = none) →
      (strings.Join (p :: ps) [b]).count b = ps.length := by
  intro ps
  induction ps with
  | nil =>
    intro p hq
    simpa [strings.Join] using strings.Index_single_none b p (hq p (by simp))
  | cons q ps ih =>
    intro p hq
    rw [strings.Join_cons_cons]
    simp only [List.count_append, List.length_cons]
    rw [strings.Index_single_none b p (hq p (by simp)),
      ih q (fun r hr => hq r (List.mem_cons_of_mem _ hr))]
    simp only [List.count_cons_self, List.count_nil]
    omega

/-- Splitting a joined text on the separator gives back the pieces, for a separator
whose first byte does not occur again in it and pieces that do not contain it. -/
theorem strings.Split_Join (b : byte) (tl : GoString) (hb : b ∉ tl)
    (p : GoString) (ps : List GoString)
    (hq : ∀ q ∈ p :: ps, strings.Index q (b :: tl) = none) :
    strings.Split (strings.Join (p :: ps) (b :: tl)) (b :: tl) = p :: ps := by
  have hlen := strings.Join_length (b :: tl) (by simp) ps p
  have hcount : strings.Count (strings.Join (p :: ps) (b :: tl)) (b :: tl) = ps.length := by
    cases tl with
    | nil => exact strings.count_Join b ps p hq
    | cons c tl =>
      unfold strings.Count
      simp only []
      rw [strings.countLoop_Join b (c :: tl) hb ps p _ 0 hq hlen]
      simp
  unfold strings.Split
  rw [if_neg (by simp), hcount]
  simp only []
  rw [if_neg (by omega)]
  exact strings.genSplitLoop_Join b tl hb ps p _ hq (by simp)

set_option maxRecDepth 100000 in
theorem utf8.first_lead : ∀ c : byte, utf8.first c < 0xF0 →
    0xC2 ≤ c.val ∧ (utf8.acceptRanges (utf8.first c / 16)).2 ≤ 0xBF
      ∧ 2 ≤ utf8.first c % 8 ∧ utf8.first c % 8 ≤ 4 := by
  decide

/-- When the first rune of a text is the whole text, the first byte does not occur
again in it: it is the only byte, or a leading byte followed by continuation bytes. -/
theorem utf8.whole_rune_head (b : byte) (tl : GoString)
    (h : (b :: tl).length ≤ utf8.DecodeRuneInString (b :: tl)) : b ∉ tl := by
  cases tl with
  | nil => simp
  | cons s1 r2 =>
    unfold utf8.DecodeRuneInString at h
    simp only [List.length_cons] at h
    by_cases hx : utf8.first b ≥ 0xF0
    · rw [if_pos hx] at h; omega
    · rw [if_neg hx] at h
      obtain ⟨hb, hacc, hsz2, hsz4⟩ := utf8.first_lead b (by omega)
      have key : ∀ l : GoString, (∀ x ∈ l, x.val ≤ 191) → b ∉ l := by
        intro l hl hmem
        have := hl b hmem
        omega
      split_ifs at h with h1 h2 h3 h4
      · omega
      · omega
      · have hr : r2 = [] := List.eq_nil_of_length_eq_zero (by omega)
        subst hr
        apply key
        intro x hx
        simp only [List.mem_singleton] at hx
        subst hx
        omega
      · cases r2 with
        | nil => simp at h
        | cons s2 r3 =>
          simp only [List.length_cons] at h
          split_ifs at h with h5
          · omega
          · have hr : r3 = [] := List.eq_nil_of_length_eq_zero (by omega)
            subst hr
            apply key
            intro x hx
            simp only [List.mem_cons, List.mem_singleton, List.not_mem_nil, or_false] at hx
            rcases hx with hx | hx <;> subst hx <;> omega
      · cases r2 with
        | nil => simp at h
        | cons s2 r3 =>
          simp only [List.length_cons] at h
          split_ifs at h with h5
          · omega
          · cases r3 with
            | nil => simp at h
            | cons s3 r4 =>
              simp only [List.length_cons] at h
              split_ifs at h with h6
              · omega
              · have hr : r4 = [] := List.eq_nil_of_length_eq_zero (by omega)
                subst hr
                apply key
                intro x hx
                simp only [List.mem_cons, List.mem_singleton, List.not_mem_nil,
                  or_false] at hx
                rcases hx with hx | hx | hx <;> subst hx <;> omega

/-- A text that is a single rune has a first byte that does not occur again in it. -/
theorem utf8.single_rune (sep : GoString) (h : utf8.RuneCountInString sep = 1) :
    ∃ b tl, sep = b :: tl ∧ b ∉ tl := by
  cases sep with
  | nil => simp [utf8.RuneCountInString, utf8.runeCountLoop] at h
  | cons b tl =>
    refine ⟨b, tl, rfl, utf8.whole_rune_head b tl ?_⟩
    by_contra hlt
    have hlt2 : utf8.DecodeRuneInString (b :: tl) < (b :: tl).length := by omega
    unfold utf8.RuneCountInString at h
    simp only [List.length_cons, utf8.runeCountLoop] at h
    rw [if_neg (by simp)] at h
    have hne : List.drop (utf8.DecodeRuneInString (b :: tl)) (b :: tl) ≠ [] := by
      intro hd
      have := List.drop_eq_nil_iff.mp hd
      omega
    cases tl with
    | nil =>
      simp only [List.length_singleton] at hlt2
      have h0 : utf8.DecodeRuneInString [b] = 0 := by omega
      unfold utf8.DecodeRuneInString at h0
      simp only [List.length_singleton] at h0
      split_ifs at h0
    | cons s1 r2 =>
      simp only [List.length_cons, utf8.runeCountLoop] at h
      rw [if_neg hne] at h
      have := utf8.runeCountLoop_ge r2.length
        (List.drop (utf8.DecodeRuneInString
          (List.drop (utf8.DecodeRuneInString (b :: s1 :: r2)) (b :: s1 :: r2)))
          (List.drop (utf8.DecodeRuneInString (b :: s1 :: r2)) (b :: s1 :: r2))) (0 + 1 + 1)
      omega

/-- C8: for a separator `sep` that is one character (one rune) and a non-empty list of
pieces none of which contains `sep`, when the raw value of `K` is the pieces joined by
`sep` and is not empty, `RequireStrings(K, sep)` returns exactly the pieces with no
error, and so does `RequireStrings(K)` when `sep` is the comma. -/
theorem requireStrings_roundtrip (c : env.client) (K sep : GoString)
    (p : GoString) (ps : List GoString)
    (hsep : utf8.RuneCountInString sep = 1)
    (hfree : ∀ q ∈ p :: ps, strings.Contains q sep = false)
    (hv : c.Getenv K = strings.Join (p :: ps) sep)
    (hne : c.Getenv K ≠ []) :
    c.RequireStrings K [sep] = (p :: ps, none)
    ∧ (sep = str "," → c.RequireStrings K [] = (p :: ps, none)) := by
  obtain ⟨b, tl, rfl, hb⟩ := utf8.single_rune sep hsep
  have hq : ∀ q ∈ p :: ps, strings.Index q (b :: tl) = none := by
    intro q hq
    have := hfree q hq
    simpa [strings.Contains] using this
  have hsplit := strings.Split_Join b tl hb p ps hq
  have h1 : c.RequireStrings K [b :: tl] = (p :: ps, none) := by
    unfold env.client.RequireStrings
    simp only [ne_eq, hne, not_false_eq_true, if_true]
    rw [hv, hsplit]
  refine ⟨h1, ?_⟩
  intro hcomma
  unfold env.client.RequireStrings
  simp only [ne_eq, hne, not_false_eq_true, if_true]
  rw [← hcomma, hv, hsplit]

/-- Witness of C8: with the default comma, empty pieces and surrounding blanks are kept;
the separator `"é"` is one character of two bytes. -/
theorem requireStrings_roundtrip_witness :
    (constClient (str " a,,b ,")).RequireStrings (str "TAGS") []
      = ([str " a", str "", str "b ", str ""], none)
    ∧ (constClient (str "soloéduo")).RequireStrings (str "TAGS") [str "é"]
      = ([str "solo", str "duo"], none) :=
  ⟨(requireStrings_roundtrip (constClient (str " a,,b ,")) (str "TAGS") (str ",")
      (str " a") [str "", str "b ", str ""] (by decide) (by decide) (by decide)
      (by decide)).2 rfl,
   (requireStrings_roundtrip (constClient (str "soloéduo")) (str "TAGS") (str "é")
      (str "solo") [str "duo"] (by decide) (by decide) (by decide) (by decide)).1⟩

/-! ## The fatal check -/

theorem strings.Contains_middle (k b : GoString) : ∀ a : GoString,
    strings.Contains (a ++ k ++ b) k = true := by
  intro a
  unfold strings.Contains
  induction a with
  | nil =>
    have hpre : k.isPrefixOf (k ++ b) = true := by
      rw [List.isPrefixOf_iff_prefix]
      exact List.prefix_append _ _
    simp only [List.nil_append]
    cases hkb : k ++ b with
    | nil =>
      have hk : k = [] := (List.append_eq_nil.mp hkb).1
      simp [strings.Index, hk]
    | cons x xs =>
      rw [hkb] at hpre
      simp [strings.Index, hpre]
  | cons x a ih =>
    simp only [List.cons_append]
    unfold strings.Index
    split_ifs
    · rfl
    · simp only [List.append_assoc] at ih
      simp only [List.append_assoc, Option.isSome_map']
      exact ih

/-- C13: `Required(nil)` returns; for an error `e` with message `msg`, `Required(e)`
panics with `"Fatal error: "` followed by `msg`; and `Required(keyError(K))` panics with
a message that contains `K`. -/
theorem required_panics_iff_error (K : GoString) :
    env.Required none = env.Outcome.returns
    ∧ (∀ msg : GoString,
        env.Required (errors.New msg) = env.Outcome.panics (str "Fatal error: " ++ msg))
    ∧ (∀ e : error, env.Required e = env.Outcome.returns ↔ e = none)
    ∧ (∃ m, env.Required (env.keyError K) = env.Outcome.panics m
        ∧ strings.Contains m K = true) := by
  refine ⟨rfl, fun _ => rfl, ?_, ?_⟩
  · intro e
    cases e with
    | none => simp [env.Required]
    | some msg => simp [env.Required]
  · refine ⟨str "Fatal error: " ++ (K ++ str " is a requried environment variable."), rfl, ?_⟩
    have := strings.Contains_middle K (str " is a requried environment variable.")
      (str "Fatal error: ")
    simpa [List.append_assoc] using this

/-! ## The package-level functions -/

/-- C14: each package-level function returns what the method of the same name returns on
`DefaultClient`; the package-level `RequireStrings` passes no separator, so on a
non-empty raw value it splits on the comma. -/
theorem free_functions_delegate (L : Lib) (dc : env.client) (K : GoString) :
    env.RequireBool dc K = dc.RequireBool K
    ∧ env.RequireBytes dc K = dc.RequireBytes K
    ∧ env.RequireFloat64 L dc K = dc.RequireFloat64 L K
    ∧ env.RequireDuration L dc K = dc.RequireDuration L K
    ∧ env.RequireInt dc K = dc.RequireInt K
    ∧ env.RequireString dc K = dc.RequireString K
    ∧ env.RequireStrings dc K = dc.RequireStrings K []
    ∧ env.RequireURL L dc K = dc.RequireURL L K
    ∧ env.RequireAddr dc K = dc.RequireAddr K
    ∧ env.RequireStrings dc K
        = (if dc.Getenv K ≠ [] then (strings.Split (dc.Getenv K) (str ","), none)
           else ([], env.keyError K)) :=
  ⟨rfl, rfl, rfl, rfl, rfl, rfl, rfl, rfl, rfl, rfl⟩

/-! ## The message of the missing-key error -/

/-- C15, where the code departs from it: for every key the message of `keyError` is
the key followed by `" is a requried environment variable."`, a text that does not
contain the phrase `"required environment variable"`; at the key `PORT` the whole
message does not contain the phrase either. -/
theorem keyError_message_misspelt :
    (∀ K : GoString,
        env.keyError K = errors.New (K ++ str " is a requried environment variable."))
    ∧ strings.Contains (str " is a requried environment variable.")
        (str "required environment variable") = false
    ∧ env.keyError (str "PORT") = some (str "PORT is a requried environment variable.")
    ∧ strings.Contains (str "PORT is a requried environment variable.")
        (str "required environment variable") = false :=
  ⟨fun _ => rfl, by decide, by decide, by decide⟩

/-! ## Separator selection -/

/-- C16: `RequireStrings(K)` with no separator equals `RequireStrings(K, ",")`, and with
one or more separators only the first is used. -/
theorem requireStrings_separator (c : env.client) (K : GoString) :
    c.RequireStrings K [] = c.RequireStrings K [str ","]
    ∧ (∀ (s1 : GoString) (rest : List GoString),
        c.RequireStrings K (s1 :: rest) = c.RequireStrings K [s1]) :=
  ⟨rfl, fun _ _ => rfl⟩

/-! ## Independence from the other keys -/

/-- C19: on two readers that give `K` the same raw value, each of the nine lookups
returns the same pair for `K`, whatever the readers hold for the other keys. -/
theorem lookup_reads_only_key (L : Lib) (c1 c2 : env.client) (K : GoString)
    (h : c1.Getenv K = c2.Getenv K) :
    c1.RequireBool K = c2.RequireBool K
    ∧ c1.RequireBytes K = c2.RequireBytes K
    ∧ c1.RequireFloat64 L K = c2.RequireFloat64 L K
    ∧ c1.RequireDuration L K = c2.RequireDuration L K
    ∧ c1.RequireInt K = c2.RequireInt K
    ∧ c1.RequireString K = c2.RequireString K
    ∧ (∀ seps, c1.RequireStrings K seps = c2.RequireStrings K seps)
    ∧ c1.RequireURL L K = c2.RequireURL L K
    ∧ c1.RequireAddr K = c2.RequireAddr K := by
  refine ⟨?_, ?_, ?_, ?_, ?_, ?_, ?_, ?_, ?_⟩
  · unfold env.client.RequireBool; rw [h]
  · unfold env.client.RequireBytes; rw [h]
  · unfold env.client.RequireFloat64; rw [h]
  · unfold env.client.RequireDuration; rw [h]
  · unfold env.client.RequireInt; rw [h]
  · unfold env.client.RequireString; rw [h]
  · intro seps; unfold env.client.RequireStrings; rw [h]
  · unfold env.client.RequireURL; rw [h]
  · unfold env.client.RequireAddr; rw [h]

/-- Witness of C19: two environments that agree on `PORT` and differ elsewhere. -/
theorem lookup_reads_only_key_witness :
    (env.DefaultClient (fun k => if k = str "PORT" then some (str "8080")
        else some (str "x"))).RequireInt (str "PORT")
      = (env.DefaultClient (oneVar (str "PORT") (str "8080"))).RequireInt (str "PORT") :=
  (lookup_reads_only_key sampleLib
    (env.DefaultClient (fun k => if k = str "PORT" then some (str "8080") else some (str "x")))
    (env.DefaultClient (oneVar (str "PORT") (str "8080"))) (str "PORT")
    (by decide)).2.2.2.2.1

/-! ## IPv4 addresses -/

theorem strconv.decimal_digits (n : Nat) :
    ∀ b ∈ strconv.decimal n, 48 ≤ b.val ∧ b.val ≤ 57 := by
  refine strconv.decimal_induction
    (fun _ xs => ∀ b ∈ xs, 48 ≤ b.val ∧ b.val ≤ 57) ?_ ?_ n
  · intro n hn b hb
    simp only [List.mem_singleton] at hb
    subst hb
    have hval : ((Fin.ofNat (48 + n) : byte)).val = 48 + n := by
      simp [Fin.ofNat]; omega
    rw [hval]; omega
  · intro n xs _ ih b hb
    simp only [List.mem_append, List.mem_singleton] at hb
    rcases hb with hb | hb
    · exact ih b hb
    · subst hb
      have hd : n % 10 < 10 := Nat.mod_lt _ (by decide)
      have hval : ((Fin.ofNat (48 + n % 10) : byte)).val = 48 + n % 10 := by
        simp [Fin.ofNat]; omega
      rw [hval]; omega

/-- The octet loop reads the decimal text of a number below 256 as that number. -/
theorem net.parseIPv4FieldsLoop_decimal (n : Nat) (hn : n < 256) :
    ∀ (rest : GoString) (fst pd : Bool) (pos : Nat) (fields : List byte),
      net.parseIPv4FieldsLoop (strconv.decimal n ++ rest) fst pd 0 pos 0 fields
        = net.parseIPv4FieldsLoop rest false false n pos (strconv.decimal n).length fields := by
  refine strconv.decimal_induction
    (fun n xs => n < 256 → 1 ≤ xs.length ∧
      ∀ (rest : GoString) (fst pd : Bool) (pos : Nat) (fields : List byte),
        net.parseIPv4FieldsLoop (xs ++ rest) fst pd 0 pos 0 fields
          = net.parseIPv4FieldsLoop rest false false n pos xs.length fields) ?_ ?_ n hn
    |>.2
  · intro n hn _
    refine ⟨by simp, ?_⟩
    intro rest fst pd pos fields
    have hval : ((Fin.ofNat (48 + n) : byte)).val = 48 + n := by
      simp [Fin.ofNat]; omega
    simp only [List.singleton_append, List.length_singleton]
    rw [net.parseIPv4FieldsLoop]
    dsimp only
    rw [hval, if_pos (by omega), if_neg (by omega), if_neg (by omega)]
    congr 1
    omega
  · intro n xs hge ih hn
    obtain ⟨hlen, ih⟩ := ih (by omega)
    refine ⟨by simp, ?_⟩
    intro rest fst pd pos fields
    have hd : n % 10 < 10 := Nat.mod_lt _ (by decide)
    have hval : ((Fin.ofNat (48 + n % 10) : byte)).val = 48 + n % 10 := by
      simp [Fin.ofNat]; omega
    rw [List.append_assoc, ih, List.singleton_append, net.parseIPv4FieldsLoop]
    dsimp only
    rw [hval, if_pos (by omega), if_neg (by omega), if_neg (by omega)]
    simp only [List.length_append, List.length_singleton]
    congr 1
    omega

theorem net.parseIPv4FieldsLoop_dot (rest : GoString) (v pos dl : Nat)
    (fields : List byte) (hrest : rest ≠ []) (hpos : pos < 3) :
    net.parseIPv4FieldsLoop (46 :: rest) false false v pos dl fields
      = net.parseIPv4FieldsLoop rest false true 0 (pos + 1) 0
          (fields ++ [Fin.ofNat (v % 256)]) := by
  rw [net.parseIPv4FieldsLoop]
  dsimp only
  rw [if_neg (by decide), if_pos (by decide), if_neg (by simp [hrest]), if_neg (by omega)]

theorem strings.find?_skip {α : Type} (p : α → Bool) (y : α) (r : List α) (hy : p y = true) :
    ∀ xs : List α, (∀ b ∈ xs, p b = false) → (xs ++ y :: r).find? p = some y := by
  intro xs
  induction xs with
  | nil => intro _; simp [List.find?, hy]
  | cons x xs ih =>
    intro h
    simp only [List.cons_append, List.find?]
    rw [h x (by simp)]
    exact ih (fun b hb => h b (List.mem_cons_of_mem _ hb))

theorem strconv.decimal_cons (n : Nat) : ∃ x xs, strconv.decimal n = x :: xs := by
  have hne := (strconv.decimal_spec n).2.2.1
  cases h : strconv.decimal n with
  | nil => exact absurd h hne
  | cons x xs => exact ⟨x, xs, rfl⟩

theorem net.parseIPv4Fields_dotted (a b c d : byte) :
    net.parseIPv4Fields (net.dottedDecimal a b c d) = some [a, b, c, d] := by
  have hne : ∀ (n : Nat) (r : GoString), strconv.decimal n ++ r ≠ [] := by
    intro n r
    obtain ⟨x, xs, hx⟩ := strconv.decimal_cons n
    rw [hx]
    simp
  have ofNat_val : ∀ x : byte, (Fin.ofNat (x.val % 256) : byte) = x := by
    intro x
    apply Fin.ext
    simp [Fin.ofNat]
  have hlast := net.parseIPv4FieldsLoop_decimal d.val d.isLt [] false true (0 + 1 + 1 + 1)
    ([] ++ [Fin.ofNat (a.val % 256)] ++ [Fin.ofNat (b.val % 256)]
      ++ [Fin.ofNat (c.val % 256)])
  rw [List.append_nil] at hlast
  unfold net.parseIPv4Fields net.dottedDecimal
  simp only [List.append_assoc, List.singleton_append, List.cons_append, List.nil_append]
  rw [net.parseIPv4FieldsLoop_decimal a.val a.isLt,
    net.parseIPv4FieldsLoop_dot _ _ _ _ _ (hne _ _) (by decide),
    net.parseIPv4FieldsLoop_decimal b.val b.isLt,
    net.parseIPv4FieldsLoop_dot _ _ _ _ _ (hne _ _) (by decide),
    net.parseIPv4FieldsLoop_decimal c.val c.isLt,
    net.parseIPv4FieldsLoop_dot _ _ _ _ _ (by simpa using hne d.val []) (by decide),
    hlast, net.parseIPv4FieldsLoop]
  simp [ofNat_val]

theorem net.ParseIP_dotted (a b c d : byte) :
    net.ParseIP (net.dottedDecimal a b c d) = some (net.v4InV6 [a, b, c, d]) := by
  have hfind : (net.dottedDecimal a b c d).find?
      (fun x => decide (x.val = 46 ∨ x.val = 58 ∨ x.val = 37)) = some 46 := by
    unfold net.dottedDecimal
    simp only [List.append_assoc, List.singleton_append]
    apply strings.find?_skip _ _ _ (by decide)
    intro x hx
    have := strconv.decimal_digits _ x hx
    simp only [decide_eq_false_iff_not]
    omega
  unfold net.ParseIP net.ParseAddr
  rw [hfind]
  simp only [net.parseIPv4, net.parseIPv4Fields_dotted]
  rfl

/-- C12: when the raw value of `K` is the dotted-decimal text of the octets `a`, `b`,
`c`, `d`, each in decimal without leading zeros, `RequireAddr` returns with no error the
address whose four IPv4 octets are `a`, `b`, `c`, `d`. -/
theorem requireAddr_ipv4_roundtrip (c : env.client) (K : GoString) (o1 o2 o3 o4 : byte)
    (hv : c.Getenv K = net.dottedDecimal o1 o2 o3 o4) :
    c.RequireAddr K = (some (net.v4InV6 [o1, o2, o3, o4]), none)
    ∧ net.To4 (net.v4InV6 [o1, o2, o3, o4]) = some [o1, o2, o3, o4] := by
  constructor
  · have hne : c.Getenv K ≠ [] := by
      rw [hv]
      obtain ⟨x, xs, hx⟩ := strconv.decimal_cons o1.val
      unfold net.dottedDecimal
      rw [hx]
      simp
    unfold env.client.RequireAddr
    simp only [ne_eq, hne, not_false_eq_true, if_true]
    rw [hv, net.ParseIP_dotted]
  · simp [net.To4, net.v4InV6]

/-- Witness of C12: the address `"10.0.0.1"`. -/
theorem requireAddr_ipv4_roundtrip_witness :
    net.dottedDecimal 10 0 0 1 = str "10.0.0.1"
    ∧ (constClient (str "10.0.0.1")).RequireAddr (str "HOST")
        = (some [0, 0, 0, 0, 0, 0, 0, 0, 0, 0, 0xff, 0xff, 10, 0, 0, 1], none)
    ∧ net.To4 [0, 0, 0, 0, 0, 0, 0, 0, 0, 0, 0xff, 0xff, 10, 0, 0, 1] = some [10, 0, 0, 1] :=
  ⟨by decide,
   requireAddr_ipv4_roundtrip (constClient (str "10.0.0.1")) (str "HOST") 10 0 0 1
     (by decide)⟩

/-! ## Durations -/

theorem time.leadingInt_decimal (n : Nat) (hn : n ≤ 2 ^ 63) :
    ∀ r : GoString, time.leadingInt (strconv.decimal n ++ r) 0 = time.leadingInt r n := by
  refine strconv.decimal_induction
    (fun n xs => n ≤ 2 ^ 63 → ∀ r : GoString,
      time.leadingInt (xs ++ r) 0 = time.leadingInt r n) ?_ ?_ n hn
  · intro n hn _ r
    have hval : ((Fin.ofNat (48 + n) : byte)).val = 48 + n := by
      simp [Fin.ofNat]; omega
    rw [List.singleton_append, time.leadingInt]
    dsimp only
    rw [hval, if_neg (by omega), if_neg (by norm_num)]
    have e : ((0 * 10 + (48 + n)) % 2 ^ 64 + 2 ^ 64 - 48) % 2 ^ 64 = n := by
      norm_num; omega
    rw [e, if_neg (by norm_num; omega)]
  · intro n xs hge ih hn r
    have hd : n % 10 < 10 := Nat.mod_lt _ (by decide)
    have hval : ((Fin.ofNat (48 + n % 10) : byte)).val = 48 + n % 10 := by
      simp [Fin.ofNat]; omega
    have hn' : n ≤ 9223372036854775808 := by norm_num at hn; exact hn
    rw [List.append_assoc, ih (by omega), List.singleton_append, time.leadingInt]
    dsimp only
    rw [hval, if_neg (by omega), if_neg (by norm_num; omega)]
    have e : ((n / 10 * 10 + (48 + n % 10)) % 2 ^ 64 + 2 ^ 64 - 48) % 2 ^ 64 = n := by
      norm_num; omega
    rw [e, if_neg (by norm_num; omega)]

/-- On a text that does not start with a digit `leadingInt` consumes nothing. -/
theorem time.leadingInt_stop (r : GoString) (n : Nat)
    (h : ∀ b, r.head? = some b → ¬ (48 ≤ b.val ∧ b.val ≤ 57)) :
    time.leadingInt r n = some (n, r) := by
  cases r with
  | nil => rfl
  | cons b t =>
    have := h b rfl
    rw [time.leadingInt, if_pos (by omega)]

set_option maxRecDepth 100000 in
theorem time.Suffix.text_spec (u : time.Suffix) :
    u.text ≠ []
    ∧ (∀ b ∈ u.text, time.isDotOrDigit b = false)
    ∧ time.unitMap u.text = some u.nanos
    ∧ 1 ≤ u.nanos := by
  cases u <;> decide

theorem time.takeWhile_unit (u r : GoString)
    (hu : ∀ b ∈ u, time.isDotOrDigit b = false)
    (hr : ∀ b, r.head? = some b → time.isDotOrDigit b = true) :
    (u ++ r).takeWhile (fun c => decide ¬ time.isDotOrDigit c = true) = u
    ∧ (u ++ r).dropWhile (fun c => decide ¬ time.isDotOrDigit c = true) = r := by
  induction u with
  | nil =>
    cases r with
    | nil => exact ⟨rfl, rfl⟩
    | cons b t =>
      have hb := hr b rfl
      have hp : (decide ¬ time.isDotOrDigit b = true) = false := by simp [hb]
      rw [List.nil_append, List.takeWhile_cons, List.dropWhile_cons, hp]
      exact ⟨rfl, rfl⟩
  | cons x u ih =>
    have hx := hu x (by simp)
    have hrec := ih (fun b hb => hu b (List.mem_cons_of_mem _ hb))
    have hp : (decide ¬ time.isDotOrDigit x = true) = true := by simp [hx]
    rw [List.cons_append, List.takeWhile_cons, List.dropWhile_cons, hp, hrec.1, hrec.2]
    exact ⟨rfl, rfl⟩

/-- A round of the duration loop on a text whose number has no fraction. -/
theorem time.parseComponent_whole (L : Lib) (c0 : byte) (t s1 u s3 : GoString)
    (d v unit : Nat)
    (h0 : time.isDotOrDigit c0 = true)
    (hli : time.leadingInt (c0 :: t) 0 = some (v, s1))
    (hpre : (c0 :: t).length ≠ s1.length)
    (hfr : time.optFraction s1 = (0, 1, s1))
    (htw : s1.takeWhile (fun c => decide ¬ time.isDotOrDigit c = true) = u)
    (hdw : s1.dropWhile (fun c => decide ¬ time.isDotOrDigit c = true) = s3)
    (hu : u.length ≠ 0)
    (hmap : time.unitMap u = some unit)
    (hv : ¬ v > 2 ^ 63 / unit)
    (hd : ¬ (d + v * unit % 2 ^ 64) % 2 ^ 64 > 2 ^ 63) :
    time.parseComponent L (c0 :: t) d = some (s3, (d + v * unit % 2 ^ 64) % 2 ^ 64) := by
  unfold time.parseComponent
  dsimp only
  rw [if_neg (by simp [h0]), hli]
  dsimp only
  rw [hfr]
  dsimp only
  rw [if_neg (fun h => h.1 hpre), htw, hdw, if_neg hu, hmap]
  dsimp only
  have hz : ¬ (0 > 0) := Nat.lt_irrefl 0
  rw [if_neg hv, if_neg hz, if_neg (fun h => hz h.1), if_neg hd]

theorem time.parseComponent_plain (L : Lib) (n : Nat) (u : time.Suffix) (rest : GoString)
    (d : Nat) (hrest : ∀ b, rest.head? = some b → time.isDotOrDigit b = true)
    (hsum : d + n * u.nanos ≤ 2 ^ 63 - 1) :
    time.parseComponent L (strconv.decimal n ++ u.text ++ rest) d
      = some (rest, d + n * u.nanos) := by
  obtain ⟨hune, hudig, humap, hupos⟩ := time.Suffix.text_spec u
  obtain ⟨x, xs, hx⟩ := strconv.decimal_cons n
  have hxd := strconv.decimal_digits n x (by rw [hx]; simp)
  have hsum' : d + n * u.nanos ≤ 9223372036854775807 := by norm_num at hsum; exact hsum
  have hnle : n ≤ n * u.nanos := Nat.le_mul_of_pos_right n hupos
  obtain ⟨y, ys, hy⟩ : ∃ y ys, u.text = y :: ys := by
    cases hu : u.text with
    | nil => exact absurd hu hune
    | cons y ys => exact ⟨y, ys, rfl⟩
  have hyd : time.isDotOrDigit y = false := hudig y (by rw [hy]; simp)
  have hyd' : ¬ (y.val = 46 ∨ (48 ≤ y.val ∧ y.val ≤ 57)) := by
    simpa [time.isDotOrDigit] using hyd
  have htd := time.takeWhile_unit u.text rest hudig hrest
  have hli : time.leadingInt (x :: (xs ++ (u.text ++ rest))) 0
      = some (n, u.text ++ rest) := by
    rw [← List.cons_append, ← hx, time.leadingInt_decimal n (by norm_num; omega)]
    apply time.leadingInt_stop
    intro b hb
    rw [hy] at hb
    simp only [List.cons_append, List.head?_cons, Option.some.injEq] at hb
    subst hb
    omega
  have key := time.parseComponent_whole L x (xs ++ (u.text ++ rest)) (u.text ++ rest)
    u.text rest d n u.nanos
    (by simp only [time.isDotOrDigit, decide_eq_true_eq]; right; exact hxd)
    hli
    (by simp only [List.length_cons, List.length_append]; omega)
    (by rw [hy, List.cons_append, time.optFraction, if_neg (by omega)])
    htd.1 htd.2
    (by rw [hy]; simp)
    humap
    (by
      have : n ≤ 2 ^ 63 / u.nanos := by
        rw [Nat.le_div_iff_mul_le hupos]
        norm_num; omega
      omega)
  have e1 : n * u.nanos % 2 ^ 64 = n * u.nanos := by
    apply Nat.mod_eq_of_lt; norm_num; omega
  have e2 : (d + n * u.nanos) % 2 ^ 64 = d + n * u.nanos := by
    apply Nat.mod_eq_of_lt; norm_num; omega
  rw [e1, e2] at key
  rw [List.append_assoc, hx, List.cons_append]
  exact key (by norm_num; omega)

theorem time.componentsText_head (comps : List (Nat × time.Suffix)) :
    ∀ b, (time.componentsText comps).head? = some b → 48 ≤ b.val ∧ b.val ≤ 57 := by
  intro b hb
  cases comps with
  | nil => simp [time.componentsText] at hb
  | cons p rest =>
    obtain ⟨n, u⟩ := p
    obtain ⟨x, xs, hx⟩ := strconv.decimal_cons n
    have hxd := strconv.decimal_digits n x (by rw [hx]; simp)
    rw [time.componentsText, hx] at hb
    simp only [List.cons_append, List.head?_cons, Option.some.injEq] at hb
    subst hb
    exact hxd

theorem time.componentsText_length (n : Nat) (u : time.Suffix)
    (rest : List (Nat × time.Suffix)) :
    (time.componentsText rest).length + 2 ≤ (time.componentsText ((n, u) :: rest)).length := by
  obtain ⟨hune, _, _, _⟩ := time.Suffix.text_spec u
  obtain ⟨x, xs, hx⟩ := strconv.decimal_cons n
  have hl : 0 < u.text.length := List.length_pos.mpr hune
  rw [time.componentsText, hx]
  simp only [List.length_append, List.length_cons]
  omega

/-- The duration loop adds up the components of a text made of whole numbers and
units. -/
theorem time.parseLoop_components (L : Lib) :
    ∀ (comps : List (Nat × time.Suffix)) (fuel d : Nat),
      (time.componentsText comps).length ≤ fuel →
      d + time.componentsTotal comps ≤ 2 ^ 63 - 1 →
      time.parseLoop L fuel (time.componentsText comps) d
        = some (d + time.componentsTotal comps) := by
  intro comps
  induction comps with
  | nil =>
    intro fuel d _ _
    cases fuel <;> simp [time.parseLoop, time.componentsText, time.componentsTotal]
  | cons p rest ih =>
    obtain ⟨n, u⟩ := p
    intro fuel d hfuel hsum
    have hlen := time.componentsText_length n u rest
    have hsum' : d + (n * u.nanos + time.componentsTotal rest) ≤ 9223372036854775807 := by
      norm_num [time.componentsTotal] at hsum; exact hsum
    cases fuel with
    | zero => omega
    | succ f =>
      have hne : time.componentsText ((n, u) :: rest) ≠ [] := by
        intro h
        rw [h] at hlen
        simp at hlen
      rw [time.parseLoop, if_neg hne, time.componentsText,
        time.parseComponent_plain L n u (time.componentsText rest) d
          (fun b hb => by
            have := time.componentsText_head rest b hb
            simp only [time.isDotOrDigit, decide_eq_true_eq]
            right; exact this)
          (by norm_num; omega)]
      dsimp only
      rw [ih f (d + n * u.nanos) (by omega) (by norm_num; omega), time.componentsTotal]
      congr 1
      omega

theorem time.ParseDuration_components (L : Lib) (comps : List (Nat × time.Suffix))
    (hne : comps ≠ []) (hsum : time.componentsTotal comps ≤ 2 ^ 63 - 1) :
    time.ParseDuration L (time.componentsText comps)
      = some (time.componentsTotal comps : Int) := by
  have hsum' : time.componentsTotal comps ≤ 9223372036854775807 := by
    norm_num at hsum; exact hsum
  have hhead := time.componentsText_head comps
  cases comps with
  | nil => exact absurd rfl hne
  | cons p rest =>
    obtain ⟨n, u⟩ := p
    have hlen := time.componentsText_length n u rest
    have h45 : (time.componentsText ((n, u) :: rest)).head? ≠ some 45 := by
      intro h
      have := (hhead _ h).1
      revert this
      decide
    have h43 : (time.componentsText ((n, u) :: rest)).head? ≠ some 43 := by
      intro h
      have := (hhead _ h).1
      revert this
      decide
    have hzero : time.componentsText ((n, u) :: rest) ≠ str "0" := by
      intro h
      rw [h] at hlen
      have h1 : (str "0").length = 1 := by decide
      omega
    have hnil : time.componentsText ((n, u) :: rest) ≠ [] := by
      intro h
      rw [h] at hlen
      simp at hlen
    have hloop := time.parseLoop_components L ((n, u) :: rest)
      (time.componentsText ((n, u) :: rest)).length 0 (Nat.le_refl _)
      (by norm_num; omega)
    rw [Nat.zero_add] at hloop
    have hfit : ¬ time.componentsTotal ((n, u) :: rest) > 2 ^ 63 - 1 := by
      norm_num; omega
    have hconv : time.toInt64 (time.componentsTotal ((n, u) :: rest) : Int)
        = (time.componentsTotal ((n, u) :: rest) : Int) := by
      unfold time.toInt64
      omega
    have hsign : ¬ ((time.componentsText ((n, u) :: rest)).head? = some 45
        ∨ (time.componentsText ((n, u) :: rest)).head? = some 43) := by
      simp [h45, h43]
    unfold time.ParseDuration
    dsimp only
    rw [if_neg hsign, if_neg hzero, if_neg hnil, hloop]
    dsimp only
    rw [if_neg h45, if_neg hfit, hconv]

/-- C11: when the raw value of `K` is the text `n1u1...nkuk` of a non-empty sequence of
components, each `ni` a decimal number and each `ui` one of `ns`, `us`, `ms`, `s`, `m`,
`h`, whose total is at most `2^63 - 1` nanoseconds, `RequireDuration` returns with no
error the sum of `ni` times the length of `ui`. -/
theorem requireDuration_components (L : Lib) (c : env.client) (K : GoString)
    (comps : List (Nat × time.Suffix)) (hne : comps ≠ [])
    (hsum : time.componentsTotal comps ≤ 2 ^ 63 - 1)
    (hv : c.Getenv K = time.componentsText comps) :
    c.RequireDuration L K = ((time.componentsTotal comps : Int), none) := by
  unfold env.client.RequireDuration
  rw [hv, time.ParseDuration_components L comps hne hsum]

/-- Witness of C11: the text `"2h45m"`, two hours and forty-five minutes. -/
theorem requireDuration_components_witness :
    time.componentsText [(2, time.Suffix.h), (45, time.Suffix.m)] = str "2h45m"
    ∧ (constClient (str "2h45m")).RequireDuration sampleLib (str "TIMEOUT")
        = (9900000000000, none) :=
  ⟨by decide,
   requireDuration_components sampleLib (constClient (str "2h45m")) (str "TIMEOUT")
     [(2, time.Suffix.h), (45, time.Suffix.m)] (by decide) (by decide) (by decide)⟩

/-! ## Joining the pieces of a split -/

/-- The index found by `Index` is the start of an instance. -/
theorem strings.Index_split : ∀ (s substr : GoString) (m : Nat),
    strings.Index s substr = some m →
      s = s.take m ++ substr ++ s.drop (m + substr.length) := by
  intro s
  induction s with
  | nil =>
    intro substr m h
    unfold strings.Index at h
    split_ifs at h with h0
    subst h0
    simp
  | cons c cs ih =>
    intro substr m h
    unfold strings.Index at h
    split_ifs at h with h0
    · simp only [Option.some.injEq] at h
      subst h
      rw [List.isPrefixOf_iff_prefix] at h0
      obtain ⟨t, ht⟩ := h0
      simp only [List.take_zero, List.nil_append, Nat.zero_add]
      rw [← ht, List.drop_left]
    · cases hi : strings.Index cs substr with
      | none => rw [hi] at h; simp at h
      | some j =>
        rw [hi] at h
        simp only [Option.map_some', Option.some.injEq] at h
        subst h
        have := ih substr j hi
        have e : j + 1 + substr.length = (j + substr.length) + 1 := by omega
        rw [e]
        simp only [List.take_succ_cons, List.drop_succ_cons, List.cons_append,
          List.cons.injEq, true_and]
        exact this

/-- The text before the first instance of a non-empty separator is free of it. -/
theorem strings.Index_take_none (substr : GoString) (hsub : substr ≠ []) :
    ∀ (s : GoString) (m : Nat), strings.Index s substr = some m →
      strings.Index (s.take m) substr = none := by
  intro s
  induction s with
  | nil =>
    intro m _
    simp [strings.Index, hsub]
  | cons c cs ih =>
    intro m h
    unfold strings.Index at h
    split_ifs at h with h0
    · simp only [Option.some.injEq] at h
      subst h
      simp [strings.Index, hsub]
    · cases hi : strings.Index cs substr with
      | none => rw [hi] at h; simp at h
      | some j =>
        rw [hi] at h
        simp only [Option.map_some', Option.some.injEq] at h
        subst h
        have hrec := ih j hi
        have hnp : ¬ substr.isPrefixOf (c :: cs.take j) = true := by
          intro hp
          apply h0
          rw [List.isPrefixOf_iff_prefix] at hp ⊢
          exact hp.trans (by
            rw [← List.take_succ_cons]
            exact List.take_prefix _ _)
        rw [List.take_succ_cons, strings.Index, if_neg hnp, hrec]
        rfl

theorem strings.Join_cons (p : GoString) (rest : List GoString) (sep : GoString)
    (h : rest ≠ []) : strings.Join (p :: rest) sep = p ++ sep ++ strings.Join rest sep := by
  cases rest with
  | nil => exact absurd rfl h
  | cons q qs => exact strings.Join_cons_cons p q qs sep

/-- Joining what the split loop returns gives back the text, however many rounds the
loop is allowed. -/
theorem strings.Join_genSplitLoop (sep : GoString) : ∀ (k : Nat) (s : GoString),
    strings.Join (strings.genSplitLoop sep k s) sep = s := by
  intro k
  induction k with
  | zero => intro s; simp [strings.genSplitLoop, strings.Join]
  | succ k ih =>
    intro s
    rw [strings.genSplitLoop]
    cases hi : strings.Index s sep with
    | none => simp [strings.Join]
    | some m =>
      dsimp only
      rw [strings.Join_cons _ _ _ (strings.genSplitLoop_ne_nil _ _ _), ih]
      exact (strings.Index_split s sep m hi).symm

theorem strings.Join_explodeLoop : ∀ (k : Nat) (s : GoString),
    strings.Join (strings.explodeLoop k s) [] = s := by
  intro k
  induction k with
  | zero => intro s; simp [strings.explodeLoop, strings.Join]
  | succ k ih =>
    intro s
    rw [strings.explodeLoop, strings.Join_cons _ _ _ (strings.explodeLoop_ne_nil _ _), ih]
    simp

theorem strings.countLoop_acc (substr : GoString) : ∀ (fuel : Nat) (s : GoString) (n : Nat),
    strings.countLoop substr fuel s n = n + strings.countLoop substr fuel s 0 := by
  intro fuel
  induction fuel with
  | zero => intro s n; simp [strings.countLoop]
  | succ f ih =>
    intro s n
    rw [strings.countLoop, strings.countLoop]
    cases strings.Index s substr with
    | none => simp
    | some i =>
      dsimp only
      rw [ih _ (n + 1), ih _ (0 + 1)]
      omega

/-- The number of instances the loop of `Count` finds is at most the length of the text. -/
theorem strings.countLoop_le (substr : GoString) (hsub : substr ≠ []) :
    ∀ (fuel : Nat) (s : GoString), strings.countLoop substr fuel s 0 ≤ s.length := by
  have hl : 0 < substr.length := List.length_pos.mpr hsub
  intro fuel
  induction fuel with
  | zero => intro s; simp [strings.countLoop]
  | succ f ih =>
    intro s
    rw [strings.countLoop]
    cases hi : strings.Index s substr with
    | none => simp
    | some i =>
      dsimp only
      rw [strings.countLoop_acc]
      have h1 := ih (s.drop (i + substr.length))
      have h2 := strings.Index_le s substr i hi
      rw [List.length_drop] at h1
      omega

/-- When the loop of `Count` finds at most `k` instances, every piece the split loop
returns in `k` rounds is free of the separator. -/
theorem strings.genSplitLoop_free (sep : GoString) (hsep : sep ≠ []) :
    ∀ (k : Nat) (s : GoString) (fuel : Nat), s.length ≤ fuel →
      strings.countLoop sep fuel s 0 ≤ k →
      ∀ q ∈ strings.genSplitLoop sep k s, strings.Index q sep = none := by
  have hl : 0 < sep.length := List.length_pos.mpr hsep
  intro k
  induction k with
  | zero =>
    intro s fuel hf hc q hq
    simp only [strings.genSplitLoop, List.mem_singleton] at hq
    subst hq
    cases fuel with
    | zero =>
      have : q = [] := List.eq_nil_of_length_eq_zero (by omega)
      subst this
      simp [strings.Index, hsep]
    | succ f =>
      rw [strings.countLoop] at hc
      cases hi : strings.Index q sep with
      | none => rfl
      | some i =>
        rw [hi] at hc
        dsimp only at hc
        rw [strings.countLoop_acc] at hc
        omega
  | succ k ih =>
    intro s fuel hf hc q hq
    rw [strings.genSplitLoop] at hq
    cases hi : strings.Index s sep with
    | none =>
      rw [hi] at hq
      simp only [List.mem_singleton] at hq
      subst hq
      exact hi
    | some m =>
      rw [hi] at hq
      dsimp only at hq
      have hle := strings.Index_le s sep m hi
      cases fuel with
      | zero => omega
      | succ f =>
        rw [strings.countLoop, hi] at hc
        dsimp only at hc
        rw [strings.countLoop_acc] at hc
        rcases List.mem_cons.mp hq with hq | hq
        · subst hq
          exact strings.Index_take_none sep hsep s m hi
        · exact ih (s.drop (m + sep.length)) f
            (by rw [List.length_drop]; omega) (by omega) q hq

/-- For a one-byte separator the loop of `Count` finds as many instances as there are
bytes equal to it, which is what `Count` returns in that case. -/
theorem strings.countLoop_single (b : byte) : ∀ (fuel : Nat) (s : GoString),
    s.length ≤ fuel → strings.countLoop [b] fuel s 0 = s.count b := by
  intro fuel
  induction fuel with
  | zero =>
    intro s hs
    have : s = [] := List.eq_nil_of_length_eq_zero (by omega)
    simp [strings.countLoop, this]
  | succ f ih =>
    intro s hs
    rw [strings.countLoop]
    cases hi : strings.Index s [b] with
    | none =>
      dsimp only
      exact (strings.Index_single_none b s hi).symm
    | some i =>
      dsimp only
      have hle := strings.Index_le s [b] i hi
      have hsplit := strings.Index_split s [b] i hi
      have htake := strings.Index_single_none b _
        (strings.Index_take_none [b] (by simp) s i hi)
      simp only [List.length_singleton] at hle hsplit ⊢
      rw [strings.countLoop_acc, ih _ (by rw [List.length_drop]; omega)]
      conv_rhs => rw [hsplit]
      simp only [List.count_append, htake, List.count_cons_self, List.count_nil]

theorem strings.Count_eq_countLoop (s sep : GoString) (hsep : sep ≠ []) :
    strings.Count s sep = strings.countLoop sep s.length s 0 := by
  unfold strings.Count
  match sep, hsep with
  | [b], _ => exact (strings.countLoop_single b _ s (Nat.le_refl _)).symm
  | _ :: _ :: _, _ => rfl

/-- What `Split` returns on a non-empty text: at least one piece, pieces that join back
to the text, and, for a non-empty separator, pieces free of the separator. -/
theorem strings.Split_spec (s sep : GoString) (hs : s ≠ []) :
    strings.Split s sep ≠ []
    ∧ strings.Join (strings.Split s sep) sep = s
    ∧ (sep ≠ [] → ∀ q ∈ strings.Split s sep, strings.Contains q sep = false) := by
  refine ⟨strings.Split_ne_nil s sep hs, ?_, ?_⟩
  · unfold strings.Split
    by_cases hsep : sep = []
    · subst hsep
      rw [if_pos rfl]
      unfold strings.explode
      simp only [utf8.RuneCountInString_pos s hs, if_true]
      exact strings.Join_explodeLoop _ _
    · rw [if_neg hsep]
      exact strings.Join_genSplitLoop _ _ _
  · intro hsep q hq
    have hc := strings.Count_eq_countLoop s sep hsep
    have hle := strings.countLoop_le sep hsep s.length s
    unfold strings.Split at hq
    rw [if_neg hsep, hc] at hq
    dsimp only at hq
    rw [if_neg (by omega)] at hq
    have := strings.genSplitLoop_free sep hsep _ s s.length (Nat.le_refl _)
      (by omega) q hq
    simp [strings.Contains, this]

/-- C18: on a non-empty raw value `v` and any separator `s`, empty or of several
bytes, `RequireStrings(K, s)` returns no error and a list of at least one element;
joining the list with `s` gives `v`; and when `s` is not empty no element contains
`s`. -/
theorem join_undoes_requireStrings (c : env.client) (K sep : GoString)
    (hne : c.Getenv K ≠ []) :
    (c.RequireStrings K [sep]).2 = none
    ∧ (c.RequireStrings K [sep]).1 ≠ []
    ∧ strings.Join (c.RequireStrings K [sep]).1 sep = c.Getenv K
    ∧ (sep ≠ [] → ∀ q ∈ (c.RequireStrings K [sep]).1, strings.Contains q sep = false) := by
  have hr : c.RequireStrings K [sep] = (strings.Split (c.Getenv K) sep, none) := by
    unfold env.client.RequireStrings
    simp only [ne_eq, hne, not_false_eq_true, if_true]
  rw [hr]
  obtain ⟨h1, h2, h3⟩ := strings.Split_spec (c.Getenv K) sep hne
  exact ⟨rfl, h1, h2, h3⟩

/-- Witness of C18: a separator of two bytes that overlaps itself in the text, and the
empty separator on a text with a character of two bytes. -/
theorem join_undoes_requireStrings_witness :
    (constClient (str "aaa")).RequireStrings (str "LIST") [str "aa"] = ([str "", str "a"], none)
    ∧ strings.Join [str "", str "a"] (str "aa") = str "aaa"
    ∧ (constClient (str "aéz")).RequireStrings (str "LIST") [str ""]
        = ([str "a", str "é", str "z"], none)
    ∧ strings.Join ((constClient (str "aéz")).RequireStrings (str "LIST") [str ""]).1 (str "")
        = str "aéz" :=
  ⟨by decide, by decide, by decide,
   (join_undoes_requireStrings (constClient (str "aéz")) (str "LIST") (str "")
      (by decide)).2.2.1⟩

/-! ## The texts `RequireInt` accepts -/

theorem strconv.allDigits_cons (c : byte) (cs : GoString) :
    strconv.allDigits (c :: cs) = true
      ↔ (48 ≤ c.val ∧ c.val ≤ 57) ∧ strconv.allDigits cs = true := by
  simp [strconv.allDigits]

theorem strconv.decVal_cons (acc : Nat) (c : byte) (cs : GoString) :
    strconv.decVal acc (c :: cs) = strconv.decVal (acc * 10 + (c.val - 48)) cs := by
  simp [strconv.decVal]

theorem strconv.decVal_ge : ∀ (ds : GoString) (acc : Nat), acc ≤ strconv.decVal acc ds := by
  intro ds
  induction ds with
  | nil => intro acc; simp [strconv.decVal]
  | cons c cs ih =>
    intro acc
    rw [strconv.decVal_cons]
    have := ih (acc * 10 + (c.val - 48))
    omega

/-- A text of `k` digits denotes a number below `10 ^ k`. -/
theorem strconv.decVal_lt : ∀ (ds : GoString) (acc : Nat), strconv.allDigits ds = true →
    strconv.decVal acc ds < (acc + 1) * 10 ^ ds.length := by
  intro ds
  induction ds with
  | nil => intro acc _; simp [strconv.decVal]
  | cons c cs ih =>
    intro acc h
    rw [strconv.allDigits_cons] at h
    rw [strconv.decVal_cons, List.length_cons, Nat.pow_succ]
    have h1 := ih (acc * 10 + (c.val - 48)) h.2
    have h2 : acc * 10 + (c.val - 48) + 1 ≤ (acc + 1) * 10 := by omega
    have h3 := Nat.mul_le_mul_right (10 ^ cs.length) h2
    calc strconv.decVal (acc * 10 + (c.val - 48)) cs
        < (acc * 10 + (c.val - 48) + 1) * 10 ^ cs.length := h1
      _ ≤ (acc + 1) * 10 * 10 ^ cs.length := h3
      _ = (acc + 1) * (10 ^ cs.length * 10) := by ring

/-- The fast path of `Atoi` reads exactly the texts of digits. -/
theorem strconv.atoiFast_spec : ∀ (ds : GoString) (acc : Nat),
    strconv.atoiFast ds (acc : Int)
      = if strconv.allDigits ds = true then some (strconv.decVal acc ds : Int) else none := by
  intro ds
  induction ds with
  | nil => intro acc; simp [strconv.atoiFast, strconv.allDigits, strconv.decVal]
  | cons c cs ih =>
    intro acc
    have hc := c.isLt
    rw [strconv.atoiFast]
    by_cases hd : 48 ≤ c.val ∧ c.val ≤ 57
    · have e : (c.val + 256 - 48) % 256 = c.val - 48 := by omega
      rw [e, if_neg (by omega)]
      have e2 : (acc : Int) * 10 + ((c.val - 48 : Nat) : Int)
          = ((acc * 10 + (c.val - 48) : Nat) : Int) := by push_cast; rfl
      rw [e2, ih, strconv.decVal_cons]
      simp [strconv.allDigits_cons, hd]
    · rw [if_pos (by omega)]
      have : ¬ strconv.allDigits (c :: cs) = true := by
        rw [strconv.allDigits_cons]
        exact fun h => hd h.1
      rw [if_neg this]

/-- The loop of `ParseUint` reads exactly the texts of digits whose value fits in 64
bits; on every other text it reports a syntax error, or a range error with the value
`maxVal`. -/
theorem strconv.parseUintLoop_spec : ∀ (ds : GoString) (n : Nat), n < 2 ^ 64 →
    (strconv.allDigits ds = true ∧ strconv.decVal n ds < 2 ^ 64 →
      strconv.parseUintLoop ((2 ^ 64 - 1) / 10 + 1) (2 ^ 64 - 1) ds n
        = (strconv.decVal n ds, none))
    ∧ (¬ (strconv.allDigits ds = true ∧ strconv.decVal n ds < 2 ^ 64) →
      (strconv.parseUintLoop ((2 ^ 64 - 1) / 10 + 1) (2 ^ 64 - 1) ds n).2
          = some strconv.Err.ErrSyntax
      ∨ strconv.parseUintLoop ((2 ^ 64 - 1) / 10 + 1) (2 ^ 64 - 1) ds n
          = (2 ^ 64 - 1, some strconv.Err.ErrRange)) := by
  intro ds
  induction ds with
  | nil =>
    intro n hn
    constructor
    · intro _; simp [strconv.parseUintLoop, strconv.decVal]
    · intro h
      exfalso; apply h
      simp only [strconv.allDigits, List.all_nil, strconv.decVal, List.foldl_nil, true_and]
      exact hn
  | cons c cs ih =>
    intro n hn
    have hn' : n < 18446744073709551616 := by norm_num at hn; exact hn
    have hc := c.isLt
    rw [strconv.parseUintLoop]
    by_cases hd : 48 ≤ c.val ∧ c.val ≤ 57
    · have hdv : strconv.digitVal c = some (c.val - 48) := by
        unfold strconv.digitVal
        rw [if_pos hd]
      rw [hdv]
      dsimp only
      rw [if_neg (by omega)]
      by_cases hcut : n ≥ (2 ^ 64 - 1) / 10 + 1
      · rw [if_pos hcut]
        have hbig : ¬ strconv.decVal n (c :: cs) < 2 ^ 64 := by
          rw [strconv.decVal_cons]
          have := strconv.decVal_ge cs (n * 10 + (c.val - 48))
          norm_num at hcut ⊢
          omega
        exact ⟨fun h => absurd h.2 hbig, fun _ => Or.inr rfl⟩
      · rw [if_neg hcut]
        have hcut' : n ≤ 1844674407370955161 := by norm_num at hcut; omega
        have e0 : n * 10 % 2 ^ 64 = n * 10 := by
          apply Nat.mod_eq_of_lt; norm_num; omega
        rw [e0]
        by_cases hwrap : n * 10 + (c.val - 48) < 2 ^ 64
        · have e1 : (n * 10 + (c.val - 48)) % 2 ^ 64 = n * 10 + (c.val - 48) :=
            Nat.mod_eq_of_lt hwrap
          have hwrap' : n * 10 + (c.val - 48) < 18446744073709551616 := by
            norm_num at hwrap; exact hwrap
          rw [e1, if_neg (by norm_num; omega)]
          have := ih (n * 10 + (c.val - 48)) hwrap
          rw [strconv.decVal_cons]
          simp only [strconv.allDigits_cons, hd, true_and]
          exact this
        · have hwrap' : 18446744073709551616 ≤ n * 10 + (c.val - 48) := by
            norm_num at hwrap; exact hwrap
          have e1 : (n * 10 + (c.val - 48)) % 2 ^ 64
              = n * 10 + (c.val - 48) - 18446744073709551616 := by
            norm_num; omega
          rw [e1, if_pos (by left; omega)]
          have hbig : ¬ strconv.decVal n (c :: cs) < 2 ^ 64 := by
            rw [strconv.decVal_cons]
            have := strconv.decVal_ge cs (n * 10 + (c.val - 48))
            norm_num
            omega
          exact ⟨fun h => absurd h.2 hbig, fun _ => Or.inr rfl⟩
    · have hnd : ¬ strconv.allDigits (c :: cs) = true := by
        rw [strconv.allDigits_cons]
        exact fun h => hd h.1
      refine ⟨fun h => absurd h.1 hnd, fun _ => Or.inl ?_⟩
      unfold strconv.digitVal
      rw [if_neg hd]
      by_cases h1 : 97 ≤ (c.val ||| 32) ∧ (c.val ||| 32) ≤ 122
      · rw [if_pos h1]
        dsimp only
        rw [if_pos (by omega)]
      · rw [if_neg h1]

theorem strconv.ParseUint_spec (ds : GoString) :
    (ds ≠ [] ∧ strconv.allDigits ds = true ∧ strconv.decVal 0 ds < 2 ^ 64 →
      strconv.ParseUint ds 0 = (strconv.decVal 0 ds, none))
    ∧ (¬ (ds ≠ [] ∧ strconv.allDigits ds = true ∧ strconv.decVal 0 ds < 2 ^ 64) →
      (strconv.ParseUint ds 0).2 = some strconv.Err.ErrSyntax
      ∨ strconv.ParseUint ds 0 = (2 ^ 64 - 1, some strconv.Err.ErrRange)) := by
  have hloop := strconv.parseUintLoop_spec ds 0 (by norm_num)
  unfold strconv.ParseUint
  by_cases hne : ds = []
  · rw [if_pos hne]
    exact ⟨fun h => absurd hne h.1, fun _ => Or.inl rfl⟩
  · rw [if_neg hne]
    simp only [strconv.intSize, if_true]
    constructor
    · intro h
      exact hloop.1 ⟨h.2.1, h.2.2⟩
    · intro h
      exact hloop.2 (fun h2 => h ⟨hne, h2.1, h2.2⟩)

/-- What `ParseInt(s, 10, 0)` returns, given what `ParseUint` returns on the text after
the sign. -/
theorem strconv.ParseInt_of_ParseUint (s : GoString) (hs : s ≠ []) :
    (∀ v : Nat, strconv.ParseUint
        (if s.head? = some 43 ∨ s.head? = some 45 then s.tail else s) 0 = (v, none) →
      strconv.ParseInt s 0
        = if ¬ s.head? = some 45 ∧ v ≥ 2 ^ 63 then (2 ^ 63 - 1, some strconv.Err.ErrRange)
          else if s.head? = some 45 ∧ v > 2 ^ 63 then (-2 ^ 63, some strconv.Err.ErrRange)
          else if s.head? = some 45 then (-(v : Int), none) else ((v : Int), none))
    ∧ (((strconv.ParseUint
          (if s.head? = some 43 ∨ s.head? = some 45 then s.tail else s) 0).2
            = some strconv.Err.ErrSyntax
        ∨ strconv.ParseUint
          (if s.head? = some 43 ∨ s.head? = some 45 then s.tail else s) 0
            = (2 ^ 64 - 1, some strconv.Err.ErrRange)) →
      (strconv.ParseInt s 0).2 ≠ none) := by
  unfold strconv.ParseInt
  rw [if_neg hs]
  dsimp only
  constructor
  · intro v hv
    rw [hv]
    simp only [strconv.intSize, if_true]
    norm_num
  · intro h
    rcases h with h | h
    · rcases hpu : strconv.ParseUint
          (if s.head? = some 43 ∨ s.head? = some 45 then s.tail else s) 0 with ⟨x, e⟩
      rw [hpu] at h
      simp only at h
      subst h
      simp
    · rw [h]
      simp only [strconv.intSize, if_true]
      by_cases hneg : s.head? = some 45
      · simp [hneg]
      · simp [hneg]

/-- The texts `Atoi` accepts are exactly the signed decimal texts whose value is in the
range of a 64-bit `int`, and it returns that value. -/
theorem strconv.Atoi_spec (s : GoString) :
    (∃ n : Int, strconv.signedDecimal s = some n ∧ -2 ^ 63 ≤ n ∧ n ≤ 2 ^ 63 - 1
        ∧ strconv.Atoi s = (n, none))
    ∨ ((∀ n : Int, strconv.signedDecimal s = some n → ¬ (-2 ^ 63 ≤ n ∧ n ≤ 2 ^ 63 - 1))
        ∧ (strconv.Atoi s).2 ≠ none) := by
  generalize hds : (if s.head? = some 43 ∨ s.head? = some 45 then s.tail else s) = ds
  have hds' : (if s.head? = some 45 ∨ s.head? = some 43 then s.tail else s) = ds := by
    rw [← hds]
    simp only [or_comm]
  have hsd : strconv.signedDecimal s
      = if ds ≠ [] ∧ strconv.allDigits ds = true then
          some (if s.head? = some 45 then -(strconv.decVal 0 ds : Int)
            else (strconv.decVal 0 ds : Int))
        else none := by
    rw [← hds]; rfl
  have hlen : ds.length ≤ s.length := by
    rw [← hds]
    split_ifs
    · simp
    · exact Nat.le_refl _
  have hunsigned : ¬ (s.head? = some 45 ∨ s.head? = some 43) → ds = s := by
    intro h
    rw [← hds']
    exact if_neg h
  have hfast := strconv.atoiFast_spec ds 0
  rw [Nat.cast_zero] at hfast
  unfold strconv.Atoi
  dsimp only
  rw [hds']
  by_cases hpath : 0 < s.length ∧ s.length < 19
  · rw [if_pos hpath]
    by_cases hsg : (s.head? = some 45 ∨ s.head? = some 43) ∧ ds.length < 1
    · rw [if_pos hsg]
      right
      have hnil : ds = [] := List.eq_nil_of_length_eq_zero (by omega)
      refine ⟨?_, by simp⟩
      intro n hn
      rw [hsd, if_neg (fun h => h.1 hnil)] at hn
      simp at hn
    · rw [if_neg hsg, hfast]
      by_cases had : strconv.allDigits ds = true
      · rw [if_pos had]
        have hne : ds ≠ [] := by
          intro hnil
          by_cases hsign : s.head? = some 45 ∨ s.head? = some 43
          · exact hsg ⟨hsign, by rw [hnil]; simp⟩
          · have := hunsigned hsign
            rw [hnil] at this
            rw [← this] at hpath
            simp at hpath
        have hV := strconv.decVal_lt ds 0 had
        have hpow : 10 ^ ds.length ≤ 10 ^ 18 :=
          Nat.pow_le_pow_right (by norm_num) (by omega)
        have hV' : strconv.decVal 0 ds < 1000000000000000000 := by
          norm_num at hpow
          omega
        left
        by_cases hneg : s.head? = some 45
        · refine ⟨-(strconv.decVal 0 ds : Int), ?_, by omega, by omega, ?_⟩
          · rw [hsd, if_pos ⟨hne, had⟩, if_pos hneg]
          · simp only [hneg, if_true]
        · refine ⟨(strconv.decVal 0 ds : Int), ?_, by omega, by omega, ?_⟩
          · rw [hsd, if_pos ⟨hne, had⟩, if_neg hneg]
          · simp only [hneg, if_false]
      · rw [if_neg had]
        right
        refine ⟨?_, by simp⟩
        intro n hn
        rw [hsd, if_neg (fun h => had h.2)] at hn
        simp at hn
  · rw [if_neg hpath]
    by_cases hs : s = []
    · right
      subst hs
      refine ⟨?_, by decide⟩
      intro n hn
      simp [strconv.signedDecimal] at hn
    · have hPI := strconv.ParseInt_of_ParseUint s hs
      rw [hds] at hPI
      have hPU := strconv.ParseUint_spec ds
      by_cases hok : ds ≠ [] ∧ strconv.allDigits ds = true ∧ strconv.decVal 0 ds < 2 ^ 64
      · have hval := hPI.1 _ (hPU.1 hok)
        rw [hval, hsd, if_pos ⟨hok.1, hok.2.1⟩]
        by_cases hneg : s.head? = some 45
        · simp only [hneg, not_true_eq_false, false_and, if_false, true_and, if_true]
          by_cases hbig : strconv.decVal 0 ds > 2 ^ 63
          · rw [if_pos hbig]
            right
            refine ⟨?_, by simp⟩
            intro n hn
            simp only [Option.some.injEq] at hn
            subst hn
            norm_num at hbig ⊢
            omega
          · rw [if_neg hbig]
            left
            refine ⟨_, rfl, ?_, ?_, rfl⟩
            · norm_num at hbig ⊢; omega
            · norm_num at hbig ⊢; omega
        · simp only [hneg, not_false_eq_true, true_and, false_and, if_false]
          by_cases hbig : strconv.decVal 0 ds ≥ 2 ^ 63
          · rw [if_pos hbig]
            right
            refine ⟨?_, by simp⟩
            intro n hn
            simp only [Option.some.injEq] at hn
            subst hn
            norm_num at hbig ⊢
            omega
          · rw [if_neg hbig]
            left
            refine ⟨_, rfl, ?_, ?_, rfl⟩
            · norm_num at hbig ⊢; omega
            · norm_num at hbig ⊢; omega
      · right
        refine ⟨?_, hPI.2 (hPU.2 hok)⟩
        intro n hn
        rw [hsd] at hn
        by_cases hshape : ds ≠ [] ∧ strconv.allDigits ds = true
        · rw [if_pos hshape] at hn
          have hbig : ¬ strconv.decVal 0 ds < 2 ^ 64 := fun h => hok ⟨hshape.1, hshape.2, h⟩
          simp only [Option.some.injEq] at hn
          subst hn
          norm_num at hbig ⊢
          split_ifs <;> omega
        · rw [if_neg hshape] at hn
          simp at hn

/-- C17: `RequireInt(K)` returns no error exactly when the raw value is an optional
single `'+'` or `'-'` followed by one or more decimal digits whose value is in the
signed 64-bit range, and then it returns that value; for every other raw value it
returns `(0, keyError(K))`. -/
theorem requireInt_exact (c : env.client) (K : GoString) :
    ((c.RequireInt K).2 = none
      ↔ ∃ n : Int, strconv.signedDecimal (c.Getenv K) = some n
          ∧ -2 ^ 63 ≤ n ∧ n ≤ 2 ^ 63 - 1)
    ∧ (∀ n : Int, strconv.signedDecimal (c.Getenv K) = some n →
        -2 ^ 63 ≤ n → n ≤ 2 ^ 63 - 1 → c.RequireInt K = (n, none))
    ∧ ((¬ ∃ n : Int, strconv.signedDecimal (c.Getenv K) = some n
          ∧ -2 ^ 63 ≤ n ∧ n ≤ 2 ^ 63 - 1)
        → c.RequireInt K = (0, env.keyError K)) := by
  have hk := env.keyError_ne_nil K
  rcases strconv.Atoi_spec (c.Getenv K) with ⟨n, hn, hlo, hhi, ha⟩ | ⟨hout, herr⟩
  · have hr : c.RequireInt K = (n, none) := by
      unfold env.client.RequireInt
      rw [ha]
    refine ⟨?_, ?_, ?_⟩
    · rw [hr]
      exact ⟨fun _ => ⟨n, hn, hlo, hhi⟩, fun _ => rfl⟩
    · intro m hm _ _
      rw [hn] at hm
      rw [hr, Option.some.inj hm]
    · intro h
      exact absurd ⟨n, hn, hlo, hhi⟩ h
  · have hr : c.RequireInt K = (0, env.keyError K) := by
      unfold env.client.RequireInt
      rcases hb : strconv.Atoi (c.Getenv K) with ⟨b, _ | er⟩
      · rw [hb] at herr; exact absurd rfl herr
      · rfl
    refine ⟨?_, ?_, fun _ => hr⟩
    · rw [hr]
      constructor
      · intro h; exact absurd h hk
      · rintro ⟨n, hn, hlo, hhi⟩
        exact absurd ⟨hlo, hhi⟩ (hout n hn)
    · intro n hn hlo hhi
      exact absurd ⟨hlo, hhi⟩ (hout n hn)

/-- Witness of C17: a signed text with leading zeros is read; padded, hexadecimal,
underscored, fractional and out-of-range texts are not. -/
theorem requireInt_exact_witness :
    (constClient (str "+007")).RequireInt (str "N") = (7, none)
    ∧ (constClient (str " 42")).RequireInt (str "N") = (0, env.keyError (str "N"))
    ∧ (constClient (str "0x1F")).RequireInt (str "N") = (0, env.keyError (str "N"))
    ∧ (constClient (str "1_000")).RequireInt (str "N") = (0, env.keyError (str "N"))
    ∧ (constClient (str "1.5")).RequireInt (str "N") = (0, env.keyError (str "N"))
    ∧ (constClient (str "9223372036854775808")).RequireInt (str "N")
        = (0, env.keyError (str "N")) :=
  ⟨(requireInt_exact (constClient (str "+007")) (str "N")).2.1 7 (by decide) (by decide)
      (by decide),
   (requireInt_exact (constClient (str " 42")) (str "N")).2.2 (by decide),
   by decide, by decide, by decide, by decide⟩
